import Mathlib

/-!
Verification of the masserstein point-measure / Wasserstein-distance core
(`masserstein/spectrum.py`).  Peaks are (position, weight) pairs; the
source's floating-point numbers are modelled by exact rationals, and
operations that can raise a Python exception return `Option`/`Except`
(`none`/`error` marking the raised exception).
-/

namespace Masserstein

/-- A peak `(m/z position, intensity)`, one entry of `Spectrum.confs`. -/
abbrev Peak := ℚ × ℚ

/-- The pruning threshold `1e-12` used by `merge_confs`. -/
def pruneThreshold : ℚ := 1 / 10 ^ 12

/-- Position (m/z) comparison, the sort key `x[0]` of `sort_confs`. -/
def posLE (a b : Peak) : Prop := a.1 ≤ b.1

/-- Strict position comparison; canonical conf lists are strictly increasing. -/
def posLt (a b : Peak) : Prop := a.1 < b.1

/-- Weight comparison used by `cut_smallest_peaks` for its descending sort
(`key = x[1]`, `reverse = True`). -/
def weightDescLE (a b : Peak) : Prop := b.2 ≤ a.2

instance : DecidableRel posLE := fun a b => inferInstanceAs (Decidable (a.1 ≤ b.1))

instance : DecidableRel posLt := fun a b => inferInstanceAs (Decidable (a.1 < b.1))

instance : DecidableRel weightDescLE := fun a b => inferInstanceAs (Decidable (b.2 ≤ a.2))

instance : IsTotal Peak posLE := ⟨fun a b => le_total a.1 b.1⟩

instance : IsTrans Peak posLE := ⟨fun _ _ _ h h' => le_trans h h'⟩

instance : IsTrans Peak posLt := ⟨fun _ _ _ h h' => lt_trans h h'⟩

instance : IsTotal Peak weightDescLE := ⟨fun a b => le_total b.2 a.2⟩

instance : IsTrans Peak weightDescLE := ⟨fun _ _ _ h h' => le_trans h' h⟩

/-- Total weight of a conf list: `sum(x[1] for x in confs)`. -/
def totalWeight (l : List Peak) : ℚ := (l.map Prod.snd).sum

/-- Total weight sitting at one position (semantic view of a conf list as a
finitely supported measure). -/
def posW (l : List Peak) (m : ℚ) : ℚ :=
  ((l.filter (fun p => decide (p.1 = m))).map Prod.snd).sum

/-- A conf list is canonical when positions are strictly increasing and every
weight is above the pruning threshold, the invariant `set_confs` establishes. -/
def canonical (l : List Peak) : Prop :=
  l.Chain' posLt ∧ ∀ p ∈ l, pruneThreshold < p.2

/-- All positions nonnegative (true of actual m/z values; rules out collision
with the `(-1, 0)` sentinel of `merge_confs`). -/
def posNonneg (l : List Peak) : Prop := ∀ p ∈ l, 0 ≤ p.1

instance (l : List Peak) : Decidable (canonical l) := by
  unfold canonical; infer_instance

instance (l : List Peak) : Decidable (posNonneg l) := by
  unfold posNonneg; infer_instance

/-- The accumulation loop of `Spectrum.merge_confs`: iterates over the conf
list (to which the caller appends the `(-1, 0)` sentinel), flushing the
running group `(cmass, cprob)` whenever the mass changes. -/
def mergeLoop : ℚ → ℚ → List Peak → List Peak
  | _, _, [] => []
  | cmass, cprob, (mass, prob) :: rest =>
    if mass ≠ cmass then (cmass, cprob) :: mergeLoop mass prob rest
    else mergeLoop cmass (cprob + prob) rest

/-- `Spectrum.merge_confs`: reads `confs[0]` (IndexError = `none` on an empty
list), groups equal masses over `confs + [(-1, 0)]`, and keeps entries with
weight `> 1e-12`. -/
def merge_confs (confs : List Peak) : Option (List Peak) :=
  match confs with
  | [] => none
  | (m0, _) :: _ =>
    some ((mergeLoop m0 0 (confs ++ [(-1, 0)])).filter
      (fun p => decide (pruneThreshold < p.2)))

/-- `Spectrum.sort_confs`: stable sort by position. -/
def sort_confs (l : List Peak) : List Peak := List.insertionSort posLE l

/-- `Spectrum.set_confs`: sort then merge. -/
def set_confs (l : List Peak) : Option (List Peak) := merge_confs (sort_confs l)

/-- `Spectrum.__add__`: concatenate conf lists, sort, merge. -/
def addSpec (a b : List Peak) : Option (List Peak) := set_confs (a ++ b)

/-- `Spectrum.__mul__`: scale every weight by `number`, then `set_confs`. -/
def spectrumMul (l : List Peak) (number : ℚ) : Option (List Peak) :=
  set_confs (l.map (fun p => (p.1, number * p.2)))

/-- `Spectrum.normalize`: `x = target_value / fsum(weights)` (ZeroDivisionError
= `none` when the total weight is zero), then rescale every weight by `x`. -/
def normalize (l : List Peak) (target_value : ℚ) : Option (List Peak) :=
  if totalWeight l = 0 then none
  else some (l.map (fun p => (p.1, p.2 * (target_value / totalWeight l))))

/-- Inner `while leftoverprob <= prob` loop of `Spectrum.WSDistanceMoves`,
for one self conf `(mass, prob)`.  The head weight of the remaining other
list is the current `leftoverprob`.  Returns the moves emitted for this self
conf together with `some` updated other-list, or `none` when the reload
`other.confs[ii]` raised IndexError (which silently ends the generator). -/
def wsInner (mass : ℚ) : ℚ → List Peak → List (ℚ × ℚ × ℚ) × Option (List Peak)
  | _, [] => ([], none)
  | prob, (om, lp) :: rest =>
    if lp ≤ prob then
      match rest with
      | [] => ([(om, mass, lp)], none)
      | _ :: _ =>
        let r := wsInner mass (prob - lp) rest
        ((om, mass, lp) :: r.1, r.2)
    else
      ([(om, mass, prob)], some ((om, lp - prob) :: rest))

/-- Outer `for mass, prob in self.confs` loop of `Spectrum.WSDistanceMoves`. -/
def wsOuter : List Peak → List Peak → List (ℚ × ℚ × ℚ)
  | [], _ => []
  | (mass, prob) :: ss, os =>
    match wsInner mass prob os with
    | (moves, none) => moves
    | (moves, some os2) => moves ++ wsOuter ss os2

/-- `Spectrum.WSDistanceMoves self other`: the lazily produced transport plan,
a list of `(other position, self position, transported weight)` entries. -/
def WSDistanceMoves (self other : List Peak) : List (ℚ × ℚ × ℚ) :=
  wsOuter self other

/-- Sum of transported weights of a plan. -/
def movesSum (moves : List (ℚ × ℚ × ℚ)) : ℚ := (moves.map (fun x => x.2.2)).sum

/-- Transport cost of a plan: `fsum(abs(x[0]-x[1])*x[2])`. -/
def movesCost (moves : List (ℚ × ℚ × ℚ)) : ℚ :=
  (moves.map (fun x => |x.1 - x.2.1| * x.2.2)).sum

/-- `np.isclose(a, b)` with the default tolerances
`rtol=1e-5, atol=1e-8`: `|a - b| <= atol + rtol * |b|`. -/
def npIsClose (a b : ℚ) : Prop := |a - b| ≤ 1 / 10 ^ 8 + (1 / 10 ^ 5) * |b|

instance (a b : ℚ) : Decidable (npIsClose a b) :=
  inferInstanceAs (Decidable (_ ≤ _))

/-- The two `ValueError`s of `Spectrum.WSDistance`. -/
inductive WSErr
  | selfNotNormalized
  | otherNotNormalized
deriving DecidableEq

/-- `Spectrum.WSDistance`: check both inputs are normalized via `np.isclose`,
then sum `|x[0] - x[1]| * x[2]` over the transport plan. -/
def WSDistance (self other : List Peak) : Except WSErr ℚ :=
  if ¬ npIsClose (totalWeight self) 1 then Except.error WSErr.selfNotNormalized
  else if ¬ npIsClose (totalWeight other) 1 then Except.error WSErr.otherNotNormalized
  else Except.ok (movesCost (WSDistanceMoves self other))

/-- The symmetric-by-construction greedy monotone coupling of two conf lists;
proof device used to relate `wsOuter s o` and `wsOuter o s`. -/
def coupling : List Peak → List Peak → List (ℚ × ℚ × ℚ)
  | [], _ => []
  | _ :: _, [] => []
  | (ms, ps) :: ss, (mo, po) :: os =>
    if ps ≤ po then (mo, ms, ps) :: coupling ss ((mo, po - ps) :: os)
    else (mo, ms, po) :: coupling ((ms, ps - po) :: ss) os
termination_by s o => s.length + o.length
decreasing_by
  all_goals simp

/-- A heap entry of `Spectrum.ScalarProduct`: `(conf, spectre_no, conf_idx)`. -/
abbrev Entry := Peak × ℕ × ℕ

/-- Python's lexicographic tuple comparison on heap entries: by conf mass,
then conf weight, then spectrum number, then conf index. -/
def entLE (a b : Entry) : Bool :=
  decide (a.1.1 < b.1.1) ||
    (decide (a.1.1 = b.1.1) &&
      (decide (a.1.2 < b.1.2) ||
        (decide (a.1.2 = b.1.2) &&
          (decide (a.2.1 < b.2.1) ||
            (decide (a.2.1 = b.2.1) && decide (a.2.2 ≤ b.2.2))))))

/-- Extract the least entry (the heap pop of `heapq.heappop`): returns the
minimum and the remaining entries. -/
def popMin : List Entry → Option (Entry × List Entry)
  | [] => none
  | e :: es =>
    match popMin es with
    | none => some (e, [])
    | some (m, rest) => if entLE e m then some (e, es) else some (m, e :: rest)

/-- Number of confs of spectrum `e.2.1` not yet consumed by cursor `e.2.2`. -/
def entRemLen (spectra : List (List Peak)) (e : Entry) : ℕ :=
  (spectra.getD e.2.1 []).length - e.2.2

/-- Termination measure of the `ScalarProduct` heap loop. -/
def qMeasure (spectra : List (List Peak)) (Q : List Entry) : ℕ :=
  (Q.map (entRemLen spectra)).sum + Q.length

/-- The `while Q != []` loop of `Spectrum.ScalarProduct`: pop the least entry,
emit its conf scaled by `weights[spectre_no]`, and push the next conf of the
same spectrum if any.  `fuel` bounds the iteration count; `ScalarProduct`
supplies `qMeasure`, which is proved sufficient. -/
def spLoopF (spectra : List (List Peak)) (ws : List ℚ) : ℕ → List Entry → List Peak
  | 0, _ => []
  | fuel + 1, Q =>
    match popMin Q with
    | none => []
    | some (e, rest) =>
      let i := e.2.1
      let next := e.2.2 + 1
      let Q2 := if next < (spectra.getD i []).length
                then ((spectra.getD i []).getD next (0, 0), i, next) :: rest
                else rest
      (e.1.1, e.1.2 * ws.getD i 0) :: spLoopF spectra ws fuel Q2

/-- The initial heap `[(spectra[i].confs[0], i, 0) for i in range(len(spectra))]`. -/
def initQ (spectra : List (List Peak)) : List Entry :=
  (List.range spectra.length).map (fun i => ((spectra.getD i []).getD 0 (0, 0), i, 0))

/-- `Spectrum.ScalarProduct`: `none` models the IndexError on
`spectra[i].confs[0]` when some input is empty (and the final `merge_confs`
IndexError when there are no inputs at all). -/
def ScalarProduct (spectra : List (List Peak)) (ws : List ℚ) : Option (List Peak) :=
  if spectra.any (fun s => s.isEmpty) then none
  else merge_confs (spLoopF spectra ws (qMeasure spectra (initQ spectra)) (initQ spectra))

/-- Iterated pairwise add + scale: `s₁*w₁ + (s₂*w₂ + (... + sₖ*wₖ))`,
the reference computation the spec equates with `ScalarProduct`. -/
def addScaleIter : List (List Peak) → List ℚ → Option (List Peak)
  | [], _ => none
  | [s], w :: _ => spectrumMul s w
  | s :: ss, w :: ws =>
    match spectrumMul s w, addScaleIter ss ws with
    | some x, some y => addSpec x y
    | _, _ => none
  | _ :: _, [] => none

/-- All confs of all spectra, each scaled by its spectrum's weight — the raw
material both `ScalarProduct` and `addScaleIter` canonicalize. -/
def scaledJoin (spectra : List (List Peak)) (ws : List ℚ) : List Peak :=
  ((spectra.zip ws).map (fun sw => sw.1.map (fun p => (p.1, p.2 * sw.2)))).flatten

/-- The `while` pop loop of `Spectrum.cut_smallest_peaks`, consuming the
ascending-weight list (the reversed descending sort) from the front while the
cumulative removed weight stays within the threshold. -/
def cutAux (thr : ℚ) : ℚ → List Peak → List Peak
  | _, [] => []
  | removed, p :: rest =>
    if removed + p.2 ≤ thr then cutAux thr (removed + p.2) rest else p :: rest

/-- `Spectrum.cut_smallest_peaks`: sort descending by weight, pop smallest
peaks from the end while `removed + next <= removed_proportion * total`,
then re-sort the survivors by position. -/
def cut_smallest_peaks (l : List Peak) (removed_proportion : ℚ) : List Peak :=
  let desc := List.insertionSort weightDescLE l
  let thr := removed_proportion * (desc.map Prod.snd).sum
  List.insertionSort posLE (cutAux thr 0 desc.reverse).reverse

/-- The `while` index-advance loop of `Spectrum.filter_against_theoretical`:
advance while `index + 1 < len(masses)` and `masses[index+1] < mz`.
`fuel` (instantiated with `masses.length`) bounds the iterations. -/
def advanceF (masses : List ℚ) (mz : ℚ) : ℕ → ℕ → ℕ
  | 0, index => index
  | fuel + 1, index =>
    if index + 1 < masses.length ∧ masses.getD (index + 1) 0 < mz
    then advanceF masses mz fuel (index + 1)
    else index

/-- The single sorted sweep of `Spectrum.filter_against_theoretical` over the
experimental confs, keeping a peak when it is within `margin` of
`masses[index]` or `masses[index + 1]`. -/
def faSweep (masses : List ℚ) (margin : ℚ) : ℕ → List Peak → List Peak
  | _, [] => []
  | index, (mz, abund) :: rest =>
    let j := advanceF masses mz masses.length index
    if |mz - masses.getD j 0| ≤ margin ∨
        (j + 1 < masses.length ∧ |mz - masses.getD (j + 1) 0| ≤ margin)
    then (mz, abund) :: faSweep masses margin j rest
    else faSweep masses margin j rest

/-- `Spectrum.filter_against_theoretical` (iterable branch): canonicalize the
concatenated theoretical confs via `set_confs` (`none` = its IndexError on an
empty concatenation), then sweep.  When every theoretical peak was pruned and
the experimental list is nonempty, `theoretical_masses[index]` raises
IndexError (`none`). -/
def filter_against_theoretical (experimental : List Peak)
    (theoreticals : List (List Peak)) (margin : ℚ) : Option (List Peak) :=
  match set_confs theoreticals.flatten with
  | none => none
  | some th =>
    if th.isEmpty ∧ ¬ experimental.isEmpty then none
    else some (faSweep (th.map Prod.fst) margin 0 experimental)

/-- All weights strictly positive (holds for canonical conf lists). -/
def allPos (l : List Peak) : Prop := ∀ p ∈ l, 0 < p.2

/-- Validity of a heap entry: the cursor indexes a real conf of a real
spectrum and carries that conf. -/
def entOK (spectra : List (List Peak)) (e : Entry) : Prop :=
  e.2.1 < spectra.length ∧ e.2.2 < (spectra.getD e.2.1 []).length ∧
    e.1 = (spectra.getD e.2.1 []).getD e.2.2 (0, 0)

/-- The confs of an entry's spectrum not yet consumed by its cursor. -/
def entRem (spectra : List (List Peak)) (e : Entry) : List Peak :=
  (spectra.getD e.2.1 []).drop e.2.2

/-- All unconsumed confs of all heap entries, scaled by their spectra's
weights: what the heap loop still has to emit. -/
def remConfs (spectra : List (List Peak)) (ws : List ℚ) (Q : List Entry) : List Peak :=
  (Q.map (fun e => (entRem spectra e).map (fun p => (p.1, p.2 * ws.getD e.2.1 0)))).flatten

/-- Outcome of `Spectrum.__init__`: the mutually-exclusive-arguments
ValueError, the IndexError escaping from `set_confs`, a usable spectrum with
the given confs, or a simulated spectrum delegated to the external isotope
calculator (out of the modelled core). -/
inductive InitOutcome
  | valueError
  | indexError
  | ok (confs : List Peak)
  | simulated
deriving DecidableEq

/-- The construction-mode dispatch of `Spectrum.__init__` (the formula string
is only tested for emptiness; simulation itself is external). -/
def spectrumInit (formula : String) (confs : Option (List Peak)) : InitOutcome :=
  if ¬ formula.isEmpty ∧ confs.isSome then InitOutcome.valueError
  else
    match confs with
    | some c =>
      match set_confs c with
      | some c2 => InitOutcome.ok c2
      | none => InitOutcome.indexError
    | none =>
      if ¬ formula.isEmpty then InitOutcome.simulated else InitOutcome.ok []

/-! ### Basic facts about sums and plans -/

theorem movesSum_nil : movesSum [] = 0 := rfl

theorem movesSum_cons (x : ℚ × ℚ × ℚ) (xs : List (ℚ × ℚ × ℚ)) :
    movesSum (x :: xs) = x.2.2 + movesSum xs := by
  simp [movesSum]

theorem movesSum_append (xs ys : List (ℚ × ℚ × ℚ)) :
    movesSum (xs ++ ys) = movesSum xs + movesSum ys := by
  simp [movesSum]

theorem totalWeight_nil : totalWeight [] = 0 := rfl

theorem totalWeight_cons (p : Peak) (l : List Peak) :
    totalWeight (p :: l) = p.2 + totalWeight l := by
  simp [totalWeight]

/-! ### Claim C8: normalize on zero total weight -/

/-- Claim C8: for every measure whose total weight is zero (including the
empty measure), `normalize(target)` fails (the division by the zero total
raises) and does not return a result. -/
theorem normalize_zero_total_fails (l : List Peak) (target : ℚ)
    (h : totalWeight l = 0) : normalize l target = none := by
  simp [normalize, h]

/-- Witness for C8 at a concrete zero-total measure and at the empty one. -/
theorem normalize_zero_total_fails_witness :
    totalWeight [((1 : ℚ), (1 : ℚ) / 2), (2, -(1 : ℚ) / 2)] = 0 ∧
      normalize [((1 : ℚ), (1 : ℚ) / 2), (2, -(1 : ℚ) / 2)] 1 = none ∧
      normalize ([] : List Peak) 1 = none := by
  refine ⟨by norm_num [totalWeight], ?_, ?_⟩
  · exact normalize_zero_total_fails _ _ (by norm_num [totalWeight])
  · exact normalize_zero_total_fails _ _ (by norm_num [totalWeight])

/-! ### Claim C9: mutually exclusive construction arguments -/

/-- Claim C9: constructing a Spectrum with both a nonempty formula string and
a literal conf list always raises ValueError, so no spectrum is ever built
from both construction modes. -/
theorem init_both_modes_value_error (formula : String) (confs : List Peak)
    (h : formula.isEmpty = false) :
    spectrumInit formula (some confs) = InitOutcome.valueError := by
  simp [spectrumInit, h]

/-- Witness for C9 with a concrete formula and conf list. -/
theorem init_both_modes_value_error_witness :
    (String.mk ['C', 'O']).isEmpty = false ∧
      spectrumInit (String.mk ['C', 'O']) (some [((28 : ℚ), 1)]) =
        InitOutcome.valueError := by
  refine ⟨rfl, init_both_modes_value_error _ _ rfl⟩

/-! ### Claim C10: empty measures crash canonicalization -/

/-- Claim C10: canonicalizing an empty conf list is an unguarded IndexError
(`merge_confs` reads `confs[0]`): `set_confs([])` fails, hence
`Spectrum(confs=[])` fails, adding two empty spectra fails, and only the
no-argument constructor returns a usable empty measure. -/
theorem empty_measure_crashes :
    merge_confs ([] : List Peak) = none ∧
      set_confs ([] : List Peak) = none ∧
      spectrumInit (String.mk []) (some []) = InitOutcome.indexError ∧
      addSpec [] [] = none ∧
      spectrumInit (String.mk []) none = InitOutcome.ok [] :=
  ⟨rfl, rfl, rfl, rfl, rfl⟩

/-! ### Claim C1: mass conservation of the transport plan -/

theorem wsInner_nil (mass prob : ℚ) : wsInner mass prob [] = ([], none) := rfl

theorem wsInner_last (mass prob om lp : ℚ) (hle : lp ≤ prob) :
    wsInner mass prob [(om, lp)] = ([(om, mass, lp)], none) := by
  unfold wsInner; rw [if_pos hle]

theorem wsInner_consume (mass prob om lp : ℚ) (q2 : Peak) (rest2 : List Peak)
    (hle : lp ≤ prob) :
    wsInner mass prob ((om, lp) :: q2 :: rest2) =
      ((om, mass, lp) :: (wsInner mass (prob - lp) (q2 :: rest2)).1,
        (wsInner mass (prob - lp) (q2 :: rest2)).2) := by
  conv_lhs => unfold wsInner
  rw [if_pos hle]

theorem wsInner_emit (mass prob om lp : ℚ) (rest : List Peak) (hgt : ¬ lp ≤ prob) :
    wsInner mass prob ((om, lp) :: rest) =
      ([(om, mass, prob)], some ((om, lp - prob) :: rest)) := by
  unfold wsInner; rw [if_neg hgt]

theorem wsInner_none_sum (mass : ℚ) :
    ∀ (os : List Peak) (prob : ℚ), (wsInner mass prob os).2 = none →
      movesSum (wsInner mass prob os).1 = totalWeight os := by
  intro os
  induction os with
  | nil => intro prob _; simp [wsInner_nil, movesSum, totalWeight]
  | cons q rest ih =>
    obtain ⟨om, lp⟩ := q
    intro prob hnone
    by_cases hle : lp ≤ prob
    · cases rest with
      | nil =>
        rw [wsInner_last mass prob om lp hle]
        simp [movesSum, totalWeight]
      | cons q2 rest2 =>
        rw [wsInner_consume mass prob om lp q2 rest2 hle] at hnone ⊢
        rw [movesSum_cons, ih (prob - lp) hnone]
        simp [totalWeight]
    · rw [wsInner_emit mass prob om lp rest hle] at hnone
      simp at hnone

theorem wsInner_some_sum (mass : ℚ) :
    ∀ (os : List Peak) (prob : ℚ) (os2 : List Peak),
      (wsInner mass prob os).2 = some os2 →
      movesSum (wsInner mass prob os).1 = prob ∧
        totalWeight os2 = totalWeight os - prob := by
  intro os
  induction os with
  | nil => intro prob os2 h; simp [wsInner_nil] at h
  | cons q rest ih =>
    obtain ⟨om, lp⟩ := q
    intro prob os2 hsome
    by_cases hle : lp ≤ prob
    · cases rest with
      | nil =>
        rw [wsInner_last mass prob om lp hle] at hsome
        simp at hsome
      | cons q2 rest2 =>
        rw [wsInner_consume mass prob om lp q2 rest2 hle] at hsome ⊢
        obtain ⟨h1, h2⟩ := ih (prob - lp) os2 hsome
        rw [movesSum_cons, h1, totalWeight_cons]
        constructor
        · ring
        · rw [h2]; ring
    · rw [wsInner_emit mass prob om lp rest hle] at hsome ⊢
      obtain rfl : ((om, lp - prob) :: rest) = os2 := by
        simpa using hsome
      rw [totalWeight_cons, totalWeight_cons]
      constructor
      · simp [movesSum]
      · ring

/-- Unfolding of the outer sweep loop on a cons cell. -/
theorem wsOuter_cons (mass prob : ℚ) (ss os : List Peak) :
    wsOuter ((mass, prob) :: ss) os =
      (wsInner mass prob os).1 ++
        (match (wsInner mass prob os).2 with
          | none => []
          | some os2 => wsOuter ss os2) := by
  rw [wsOuter]
  rcases h : wsInner mass prob os with ⟨moves, flag⟩
  cases flag <;> simp

theorem wsOuter_sum : ∀ (s os : List Peak), totalWeight s = totalWeight os →
    movesSum (wsOuter s os) = totalWeight s := by
  intro s
  induction s with
  | nil => intro os _; simp [wsOuter, movesSum, totalWeight]
  | cons q ss ih =>
    obtain ⟨mass, prob⟩ := q
    intro os heq
    rw [wsOuter_cons]
    rcases hflag : (wsInner mass prob os).2 with _ | os2
    · rw [movesSum_append, wsInner_none_sum mass os prob hflag]
      simp [movesSum, ← heq]
    · obtain ⟨h1, h2⟩ := wsInner_some_sum mass os prob os2 hflag
      rw [movesSum_append, h1]
      have hss : totalWeight ss = totalWeight os2 := by
        rw [h2, ← heq, totalWeight_cons]; ring
      rw [ih os2 hss, totalWeight_cons, hss]

/-- Claim C1: for canonical measures of equal total weight, the transported
weights of the plan produced by `WSDistanceMoves` sum exactly to the shared
total weight. -/
theorem wsdistancemoves_mass_conservation (a b : List Peak)
    (_ha : canonical a) (_hb : canonical b)
    (hw : totalWeight a = totalWeight b) :
    movesSum (WSDistanceMoves a b) = totalWeight a :=
  wsOuter_sum a b hw

/-- Witness for C1 on concrete canonical measures of equal total weight. -/
theorem wsdistancemoves_mass_conservation_witness :
    canonical [((100 : ℚ), 1 / 2), (101, 1 / 2)] ∧
      canonical [((100 : ℚ), 3 / 10), (101, 7 / 10)] ∧
      totalWeight [((100 : ℚ), 1 / 2), (101, 1 / 2)] =
        totalWeight [((100 : ℚ), 3 / 10), (101, 7 / 10)] ∧
      movesSum (WSDistanceMoves [((100 : ℚ), 1 / 2), (101, 1 / 2)]
          [((100 : ℚ), 3 / 10), (101, 7 / 10)]) =
        totalWeight [((100 : ℚ), 1 / 2), (101, 1 / 2)] := by
  have ha : canonical [((100 : ℚ), 1 / 2), (101, 1 / 2)] := by
    constructor
    · simp [List.chain'_cons, posLt]; norm_num
    · intro p hp
      fin_cases hp <;> norm_num [pruneThreshold]
  have hb : canonical [((100 : ℚ), 3 / 10), (101, 7 / 10)] := by
    constructor
    · simp [List.chain'_cons, posLt]; norm_num
    · intro p hp
      fin_cases hp <;> norm_num [pruneThreshold]
  have hw : totalWeight [((100 : ℚ), 1 / 2), (101, 1 / 2)] =
      totalWeight [((100 : ℚ), 3 / 10), (101, 7 / 10)] := by
    norm_num [totalWeight]
  exact ⟨ha, hb, hw, wsdistancemoves_mass_conservation _ _ ha hb hw⟩

/-! ### Claim C3: the normalization guard of WSDistance -/

/-- Claim C3 counterexample: a measure whose total weight exceeds 1 by
`1e-6 > 1e-9` is still accepted by `WSDistance` and a transport cost is
returned — the guard is `np.isclose` with default tolerance
`1e-8 + 1e-5·|1|`, not the claimed 1e-9. -/
theorem wsdistance_tolerance_counterexample :
    |totalWeight [((0 : ℚ), 1 + 1 / 10 ^ 6)] - 1| > 1 / 10 ^ 9 ∧
      WSDistance [((0 : ℚ), 1 + 1 / 10 ^ 6)] [((0 : ℚ), 1)] = Except.ok 0 := by
  constructor
  · rw [show totalWeight [((0 : ℚ), 1 + 1 / 10 ^ 6)] - 1 = 1 / 10 ^ 6 from by
      norm_num [totalWeight]]
    rw [abs_of_pos (by norm_num)]
    norm_num
  · norm_num [WSDistance, npIsClose, totalWeight, movesCost, WSDistanceMoves, wsOuter,
      wsInner, abs_le]

/-- Claim C3 (amended): `WSDistance(a, b)` fails exactly when either
argument's total weight differs from 1 by more than `1e-8 + 1e-5`
(the `np.isclose` default tolerance `atol + rtol·|1|`); whenever both totals
are within that tolerance of 1 it proceeds and returns the transport cost of
the plan. -/
theorem wsdistance_guard (a b : List Peak) :
    ((∃ e, WSDistance a b = Except.error e) ↔
        |totalWeight a - 1| > 1 / 10 ^ 8 + 1 / 10 ^ 5 ∨
          |totalWeight b - 1| > 1 / 10 ^ 8 + 1 / 10 ^ 5) ∧
      (|totalWeight a - 1| ≤ 1 / 10 ^ 8 + 1 / 10 ^ 5 →
        |totalWeight b - 1| ≤ 1 / 10 ^ 8 + 1 / 10 ^ 5 →
        WSDistance a b = Except.ok (movesCost (WSDistanceMoves a b))) := by
  have htol : (1 : ℚ) / 10 ^ 8 + (1 / 10 ^ 5) * |(1 : ℚ)| = 1 / 10 ^ 8 + 1 / 10 ^ 5 := by
    norm_num
  constructor
  · constructor
    · intro ⟨e, he⟩
      by_contra hno
      push_neg at hno
      obtain ⟨h1, h2⟩ := hno
      have g1 : npIsClose (totalWeight a) 1 := by
        unfold npIsClose; rw [htol]; exact not_lt.mp (by simpa using h1)
      have g2 : npIsClose (totalWeight b) 1 := by
        unfold npIsClose; rw [htol]; exact not_lt.mp (by simpa using h2)
      simp [WSDistance, g1, g2] at he
    · intro h
      unfold WSDistance
      rcases h with h | h
      · have : ¬ npIsClose (totalWeight a) 1 := by
          unfold npIsClose; rw [htol]; exact not_le.mpr h
        exact ⟨WSErr.selfNotNormalized, by simp [this]⟩
      · by_cases g1 : npIsClose (totalWeight a) 1
        · have : ¬ npIsClose (totalWeight b) 1 := by
            unfold npIsClose; rw [htol]; exact not_le.mpr h
          exact ⟨WSErr.otherNotNormalized, by simp [g1, this]⟩
        · exact ⟨WSErr.selfNotNormalized, by simp [g1]⟩
  · intro h1 h2
    have g1 : npIsClose (totalWeight a) 1 := by unfold npIsClose; rw [htol]; exact h1
    have g2 : npIsClose (totalWeight b) 1 := by unfold npIsClose; rw [htol]; exact h2
    simp [WSDistance, g1, g2]

/-- Witness for C3 (amended) at concrete normalized measures. -/
theorem wsdistance_guard_witness :
    |totalWeight [((100 : ℚ), 1)] - 1| ≤ 1 / 10 ^ 8 + 1 / 10 ^ 5 ∧
      WSDistance [((100 : ℚ), 1)] [((101 : ℚ), 1)] =
        Except.ok (movesCost (WSDistanceMoves [((100 : ℚ), 1)] [((101 : ℚ), 1)])) := by
  have h1 : |totalWeight [((100 : ℚ), 1)] - 1| ≤ 1 / 10 ^ 8 + 1 / 10 ^ 5 := by
    norm_num [totalWeight]
  have h2 : |totalWeight [((101 : ℚ), 1)] - 1| ≤ 1 / 10 ^ 8 + 1 / 10 ^ 5 := by
    norm_num [totalWeight]
  exact ⟨h1, (wsdistance_guard _ _).2 h1 h2⟩

/-! ### Merging an already canonical (strictly sorted) list -/

theorem chain'_posLt_sorted {l : List Peak} (h : l.Chain' posLt) :
    List.Sorted posLE l := by
  rw [List.chain'_iff_pairwise] at h
  exact h.imp (fun hab => le_of_lt hab)

theorem chain'_posLt_cons_iff {q : Peak} {rest : List Peak} :
    ((q :: rest).Chain' posLt) ↔ (∀ x ∈ rest, q.1 < x.1) ∧ rest.Chain' posLt := by
  rw [List.chain'_iff_pairwise, List.pairwise_cons, List.chain'_iff_pairwise]
  exact Iff.rfl

theorem mergeLoop_strict : ∀ (ls : List Peak) (m p : ℚ), 0 ≤ m →
    (∀ q ∈ ls, m < q.1) → ls.Chain' posLt → posNonneg ls →
    mergeLoop m p (ls ++ [(-1, 0)]) = (m, p) :: ls := by
  intro ls
  induction ls with
  | nil =>
    intro m p hm _ _ _
    have hne : (-1 : ℚ) ≠ m := by
      intro h; rw [← h] at hm; norm_num at hm
    simp [mergeLoop, hne]
  | cons q rest ih =>
    obtain ⟨qm, qp⟩ := q
    intro m p hm hlt hch hnn
    have hq : m < qm := hlt (qm, qp) (by simp)
    have hne : qm ≠ m := ne_of_gt hq
    obtain ⟨hhead, htail⟩ := chain'_posLt_cons_iff.mp hch
    rw [List.cons_append]
    conv_lhs => unfold mergeLoop
    rw [if_pos hne]
    rw [ih qm qp (hnn (qm, qp) (by simp)) hhead htail
      (fun x hx => hnn x (by simp [hx]))]

theorem merge_confs_strict (l : List Peak) (hch : l.Chain' posLt)
    (hnn : posNonneg l) (hne : l ≠ []) :
    merge_confs l = some (l.filter (fun p => decide (pruneThreshold < p.2))) := by
  cases l with
  | nil => exact absurd rfl hne
  | cons q rest =>
    obtain ⟨m0, p0⟩ := q
    obtain ⟨hhead, htail⟩ := chain'_posLt_cons_iff.mp hch
    have step1 : mergeLoop m0 0 (((m0, p0) :: rest) ++ [(-1, 0)]) = (m0, p0) :: rest := by
      rw [List.cons_append]
      conv_lhs => unfold mergeLoop
      rw [if_neg (by simp)]
      rw [zero_add]
      exact mergeLoop_strict rest m0 p0 (hnn (m0, p0) (by simp)) hhead htail
        (fun x hx => hnn x (by simp [hx]))
    rw [show merge_confs ((m0, p0) :: rest) =
        some ((mergeLoop m0 0 (((m0, p0) :: rest) ++ [(-1, 0)])).filter
          (fun p => decide (pruneThreshold < p.2))) from rfl]
    rw [step1]

/-! ### Claim C4: scaling -/

/-- Claim C4 counterexample: scaling the canonical measure `[(1, 0.5)]` by
`-1` yields the empty measure — `merge_confs` keeps only entries with weight
`> 1e-12`, so negative weights are dropped rather than kept under the claimed
absolute-value pruning rule (under which `(1, -0.5)` would survive). -/
theorem spectrumMul_counterexample :
    spectrumMul [((1 : ℚ), 1 / 2)] (-1) = some [] ∧
      ¬ spectrumMul [((1 : ℚ), 1 / 2)] (-1) = some [((1 : ℚ), -(1 / 2))] := by
  have h : spectrumMul [((1 : ℚ), 1 / 2)] (-1) = some [] := by
    norm_num [spectrumMul, set_confs, sort_confs, merge_confs, mergeLoop, pruneThreshold,
      List.insertionSort, List.orderedInsert, List.filter_cons]
  exact ⟨h, by rw [h]; simp⟩

/-- Claim C4 (amended): for every nonempty canonical measure (with
nonnegative positions) and every factor, `scale(factor)` yields the original
positions carrying `factor` times the original weight, retaining exactly the
entries whose new weight strictly exceeds `1e-12` — so entries made negative
or tiny by the factor are dropped, not kept by an absolute-value rule. -/
theorem spectrumMul_amended (c : List Peak) (k : ℚ) (hc : canonical c)
    (hnn : posNonneg c) (hne : c ≠ []) :
    spectrumMul c k =
      some ((c.map (fun p => (p.1, k * p.2))).filter
        (fun p => decide (pruneThreshold < p.2))) := by
  unfold spectrumMul set_confs sort_confs
  have hch : (c.map (fun p : Peak => (p.1, k * p.2))).Chain' posLt := by
    rw [List.chain'_map]
    exact hc.1
  rw [List.Sorted.insertionSort_eq (chain'_posLt_sorted hch)]
  refine merge_confs_strict _ hch ?_ ?_
  · intro p hp
    obtain ⟨q, hq, rfl⟩ := List.mem_map.mp hp
    exact hnn q hq
  · simp [hne]

/-- Witness for C4 (amended) at a concrete canonical measure and factor. -/
theorem spectrumMul_amended_witness :
    canonical [((1 : ℚ), 1)] ∧ posNonneg [((1 : ℚ), 1)] ∧
      spectrumMul [((1 : ℚ), 1)] 2 = some [((1 : ℚ), 2)] := by
  have hc : canonical [((1 : ℚ), 1)] := by
    refine ⟨List.chain'_singleton _, ?_⟩
    intro p hp; fin_cases hp; norm_num [pruneThreshold]
  have hn : posNonneg [((1 : ℚ), 1)] := by
    intro p hp; fin_cases hp; norm_num
  refine ⟨hc, hn, ?_⟩
  rw [spectrumMul_amended _ _ hc hn (by simp)]
  norm_num [List.filter_cons, pruneThreshold]

/-! ### Claim C6: smallest-peak pruning -/

theorem cutAux_split : ∀ (asc : List Peak) (thr removed : ℚ), removed ≤ thr →
    ∃ rem, asc = rem ++ cutAux thr removed asc ∧
      removed + (rem.map Prod.snd).sum ≤ thr := by
  intro asc
  induction asc with
  | nil =>
    intro thr removed h
    exact ⟨[], by simp [cutAux], by simpa⟩
  | cons p rest ih =>
    intro thr removed h
    by_cases hc : removed + p.2 ≤ thr
    · obtain ⟨rem, hsplit, hsum⟩ := ih thr (removed + p.2) hc
      refine ⟨p :: rem, ?_, ?_⟩
      · simp only [cutAux, if_pos hc, List.cons_append]
        rw [← hsplit]
      · simp only [List.map_cons, List.sum_cons]
        linarith
    · refine ⟨[], ?_, by simpa⟩
      simp only [cutAux, if_neg hc, List.nil_append]

/-- Claim C6 counterexample: pruning `[(1, 0.01), (2, 0.04), (3, 0.95)]` with
`removed_proportion = 0.05` removes BOTH `(1, 0.01)` and `(2, 0.04)` (the
loop's `<=` makes the boundary inclusive: `0.01 + 0.04 = 0.05` is still
removed), not only `(1, 0.01)` as claimed. -/
theorem cut_smallest_peaks_counterexample :
    cut_smallest_peaks [((1 : ℚ), 1 / 100), (2, 4 / 100), (3, 95 / 100)] (5 / 100) =
        [((3 : ℚ), 19 / 20)] ∧
      ¬ cut_smallest_peaks [((1 : ℚ), 1 / 100), (2, 4 / 100), (3, 95 / 100)] (5 / 100) =
          [((2 : ℚ), 4 / 100), (3, 95 / 100)] := by
  have h : cut_smallest_peaks [((1 : ℚ), 1 / 100), (2, 4 / 100), (3, 95 / 100)] (5 / 100) =
      [((3 : ℚ), 19 / 20)] := by
    norm_num [cut_smallest_peaks, cutAux, weightDescLE, posLE,
      List.insertionSort, List.orderedInsert]
  exact ⟨h, by rw [h]; simp⟩

/-- Claim C6 (amended): on the example the peaks `(1, 0.01)` and `(2, 0.04)`
are both removed — a peak is removed even when the cumulative removed weight
equals the threshold exactly.  In general removal proceeds in ascending-weight
order (every removed weight is at most every kept weight) and stops before the
cumulative removed weight exceeds the requested fraction of total weight. -/
theorem cut_smallest_peaks_amended (l : List Peak) (prop : ℚ)
    (hp : 0 ≤ prop) (hw : ∀ p ∈ l, 0 ≤ p.2) :
    ∃ rem keep,
      (List.insertionSort weightDescLE l).reverse = rem ++ keep ∧
      cut_smallest_peaks l prop = List.insertionSort posLE keep.reverse ∧
      (rem.map Prod.snd).sum ≤ prop * totalWeight l ∧
      ∀ r ∈ rem, ∀ q ∈ keep, r.2 ≤ q.2 := by
  have hperm := List.perm_insertionSort weightDescLE l
  have hsum_eq : ((List.insertionSort weightDescLE l).map Prod.snd).sum =
      totalWeight l := by
    exact (hperm.map Prod.snd).sum_eq
  have htotal_nonneg : 0 ≤ totalWeight l := by
    refine List.sum_nonneg ?_
    intro x hx
    obtain ⟨q, hq, rfl⟩ := List.mem_map.mp hx
    exact hw q hq
  have hthr_nonneg : (0 : ℚ) ≤ prop * ((List.insertionSort weightDescLE l).map Prod.snd).sum := by
    rw [hsum_eq]; exact mul_nonneg hp htotal_nonneg
  obtain ⟨rem, hsplit, hsum⟩ :=
    cutAux_split (List.insertionSort weightDescLE l).reverse
      (prop * ((List.insertionSort weightDescLE l).map Prod.snd).sum) 0 hthr_nonneg
  refine ⟨rem, _, hsplit, ?_, ?_, ?_⟩
  · simp [cut_smallest_peaks]
  · rw [zero_add] at hsum
    rw [← hsum_eq]; exact hsum
  · intro r hr q hq
    have hasc : (List.insertionSort weightDescLE l).reverse.Pairwise
        (fun a b : Peak => a.2 ≤ b.2) := by
      rw [List.pairwise_reverse]
      exact List.sorted_insertionSort weightDescLE l
    rw [hsplit] at hasc
    exact (List.pairwise_append.mp hasc).2.2 r hr q hq

/-- Witness for C6 (amended) at the spec's example input. -/
theorem cut_smallest_peaks_amended_witness :
    (0 : ℚ) ≤ 5 / 100 ∧
      (∀ p ∈ [((1 : ℚ), 1 / 100), (2, 4 / 100), (3, 95 / 100)], 0 ≤ p.2) ∧
      ∃ rem keep,
        (List.insertionSort weightDescLE
            [((1 : ℚ), 1 / 100), (2, 4 / 100), (3, 95 / 100)]).reverse = rem ++ keep ∧
        cut_smallest_peaks [((1 : ℚ), 1 / 100), (2, 4 / 100), (3, 95 / 100)] (5 / 100) =
          List.insertionSort posLE keep.reverse ∧
        (rem.map Prod.snd).sum ≤
          (5 / 100) * totalWeight [((1 : ℚ), 1 / 100), (2, 4 / 100), (3, 95 / 100)] ∧
        ∀ r ∈ rem, ∀ q ∈ keep, r.2 ≤ q.2 := by
  refine ⟨by norm_num, ?_, ?_⟩
  · intro p hp; fin_cases hp <;> norm_num
  · apply cut_smallest_peaks_amended
    · norm_num
    · intro p hp; fin_cases hp <;> norm_num

/-! ### Claim C2: distance symmetry and non-negativity -/

theorem movesCost_nil : movesCost [] = 0 := rfl

theorem movesCost_cons (x : ℚ × ℚ × ℚ) (xs : List (ℚ × ℚ × ℚ)) :
    movesCost (x :: xs) = |x.1 - x.2.1| * x.2.2 + movesCost xs := by
  simp [movesCost]

theorem movesCost_cons3 (a b c : ℚ) (xs : List (ℚ × ℚ × ℚ)) :
    movesCost ((a, b, c) :: xs) = |a - b| * c + movesCost xs := by
  simp [movesCost]

theorem movesCost_nonneg (moves : List (ℚ × ℚ × ℚ))
    (h : ∀ x ∈ moves, 0 ≤ x.2.2) : 0 ≤ movesCost moves := by
  refine List.sum_nonneg ?_
  intro y hy
  obtain ⟨x, hx, rfl⟩ := List.mem_map.mp hy
  exact mul_nonneg (abs_nonneg _) (h x hx)

theorem coupling_nil_left (os : List Peak) : coupling [] os = [] := by
  rw [coupling]

theorem coupling_nil_right (s : List Peak) : coupling s [] = [] := by
  cases s with
  | nil => rw [coupling]
  | cons q ss => rw [coupling]

theorem coupling_cons_le (ms ps mo po : ℚ) (ss os : List Peak) (h : ps ≤ po) :
    coupling ((ms, ps) :: ss) ((mo, po) :: os) =
      (mo, ms, ps) :: coupling ss ((mo, po - ps) :: os) := by
  rw [coupling, if_pos h]

theorem coupling_cons_gt (ms ps mo po : ℚ) (ss os : List Peak) (h : ¬ ps ≤ po) :
    coupling ((ms, ps) :: ss) ((mo, po) :: os) =
      (mo, ms, po) :: coupling ((ms, ps - po) :: ss) os := by
  rw [coupling, if_neg h]

theorem wsOuter_nil (os : List Peak) : wsOuter [] os = [] := rfl

theorem wsOuter_cons_nil (ms ps : ℚ) (ss : List Peak) :
    wsOuter ((ms, ps) :: ss) [] = [] := by
  rw [wsOuter_cons, wsInner_nil]
  simp

theorem wsOuter_last (ms ps mo po : ℚ) (ss : List Peak) (h : po ≤ ps) :
    wsOuter ((ms, ps) :: ss) [(mo, po)] = [(mo, ms, po)] := by
  rw [wsOuter_cons, wsInner_last ms ps mo po h]
  simp

theorem wsOuter_consume (ms ps mo po : ℚ) (ss : List Peak) (q : Peak) (os : List Peak)
    (h : po ≤ ps) :
    wsOuter ((ms, ps) :: ss) ((mo, po) :: q :: os) =
      (mo, ms, po) :: wsOuter ((ms, ps - po) :: ss) (q :: os) := by
  rw [wsOuter_cons, wsOuter_cons, wsInner_consume ms ps mo po q os h]
  simp

theorem wsOuter_yield (ms ps mo po : ℚ) (ss os : List Peak) (h : ¬ po ≤ ps) :
    wsOuter ((ms, ps) :: ss) ((mo, po) :: os) =
      (mo, ms, ps) :: wsOuter ss ((mo, po - ps) :: os) := by
  rw [wsOuter_cons, wsInner_emit ms ps mo po os h]
  simp

theorem wsInner_nonneg (mass : ℚ) :
    ∀ (os : List Peak) (prob : ℚ), 0 ≤ prob → (∀ p ∈ os, 0 ≤ p.2) →
      (∀ x ∈ (wsInner mass prob os).1, 0 ≤ x.2.2) ∧
        (∀ os2, (wsInner mass prob os).2 = some os2 → ∀ p ∈ os2, 0 ≤ p.2) := by
  intro os
  induction os with
  | nil =>
    intro prob _ _
    constructor
    · intro x hx; simp [wsInner_nil] at hx
    · intro os2 h; simp [wsInner_nil] at h
  | cons q rest ih =>
    obtain ⟨om, lp⟩ := q
    intro prob hprob hos
    have hlp : 0 ≤ lp := hos (om, lp) (by simp)
    by_cases hle : lp ≤ prob
    · cases rest with
      | nil =>
        rw [wsInner_last mass prob om lp hle]
        constructor
        · intro x hx
          simp at hx
          subst hx; exact hlp
        · intro os2 h; simp at h
      | cons q2 rest2 =>
        rw [wsInner_consume mass prob om lp q2 rest2 hle]
        obtain ⟨ihm, ihf⟩ := ih (prob - lp) (by linarith)
          (fun p hp => hos p (by simp [hp]))
        constructor
        · intro x hx
          rcases List.mem_cons.mp hx with rfl | hx2
          · exact hlp
          · exact ihm x hx2
        · intro os2 h
          exact ihf os2 h
    · rw [wsInner_emit mass prob om lp rest hle]
      constructor
      · intro x hx
        simp at hx
        subst hx; exact hprob
      · intro os2 h
        simp at h
        subst h
        intro p hp
        rcases List.mem_cons.mp hp with rfl | hp2
        · simp; linarith [not_le.mp hle]
        · exact hos p (by simp [hp2])

theorem wsOuter_nonneg : ∀ (s os : List Peak),
    (∀ p ∈ s, 0 ≤ p.2) → (∀ p ∈ os, 0 ≤ p.2) →
    ∀ x ∈ wsOuter s os, 0 ≤ x.2.2 := by
  intro s
  induction s with
  | nil => intro os _ _ x hx; simp [wsOuter_nil] at hx
  | cons q ss ih =>
    obtain ⟨mass, prob⟩ := q
    intro os hs hos x hx
    rw [wsOuter_cons] at hx
    have hprob : 0 ≤ prob := hs (mass, prob) (by simp)
    have hstail : ∀ p ∈ ss, 0 ≤ p.2 := fun p hp => hs p (by simp [hp])
    rcases List.mem_append.mp hx with hx1 | hx2
    · exact (wsInner_nonneg mass os prob hprob hos).1 x hx1
    · rcases hflag : (wsInner mass prob os).2 with _ | os2
      · rw [hflag] at hx2; simp at hx2
      · rw [hflag] at hx2
        simp only [] at hx2
        exact ih os2 hstail ((wsInner_nonneg mass os prob hprob hos).2 os2 hflag) x hx2

/-- Dropping a zero-weight head of the supply side does not change the cost
of the greedy coupling. -/
theorem coupling_cost_zero_head (ss os : List Peak) (x : ℚ) (hss : allPos ss) :
    movesCost (coupling ss ((x, 0) :: os)) = movesCost (coupling ss os) := by
  cases ss with
  | nil => rw [coupling_nil_left, coupling_nil_left]
  | cons q ss2 =>
    obtain ⟨ms, ps⟩ := q
    have hpos : 0 < ps := hss (ms, ps) (by simp)
    rw [coupling_cons_gt ms ps x 0 ss2 os (by linarith)]
    rw [movesCost_cons]
    simp [sub_zero]

theorem wsOuter_coupling_cost : ∀ (n : ℕ) (s o : List Peak),
    s.length + o.length ≤ n → allPos s → allPos o →
    movesCost (wsOuter s o) = movesCost (coupling s o) := by
  intro n
  induction n with
  | zero =>
    intro s o hlen _ _
    have hs : s = [] := List.eq_nil_of_length_eq_zero (by omega)
    subst hs
    rw [wsOuter_nil, coupling_nil_left]
  | succ n ih =>
    intro s o hlen hs ho
    cases s with
    | nil => rw [wsOuter_nil, coupling_nil_left]
    | cons q ss =>
      obtain ⟨ms, ps⟩ := q
      cases o with
      | nil => rw [wsOuter_cons_nil, coupling_nil_right]
      | cons r os =>
        obtain ⟨mo, po⟩ := r
        have hps : 0 < ps := hs (ms, ps) (by simp)
        have hpo : 0 < po := ho (mo, po) (by simp)
        have hstail : allPos ss := fun p hp => hs p (by simp [hp])
        have hotail : allPos os := fun p hp => ho p (by simp [hp])
        rcases lt_trichotomy po ps with hlt | heq | hgt
        · cases os with
          | nil =>
            rw [wsOuter_last ms ps mo po ss (le_of_lt hlt)]
            rw [coupling_cons_gt ms ps mo po ss [] (not_le.mpr hlt)]
            rw [coupling_nil_right]
          | cons q2 os2 =>
            rw [wsOuter_consume ms ps mo po ss q2 os2 (le_of_lt hlt)]
            rw [coupling_cons_gt ms ps mo po ss (q2 :: os2) (not_le.mpr hlt)]
            rw [movesCost_cons3, movesCost_cons3]
            have hres : movesCost (wsOuter ((ms, ps - po) :: ss) (q2 :: os2)) =
                movesCost (coupling ((ms, ps - po) :: ss) (q2 :: os2)) := by
              refine ih ((ms, ps - po) :: ss) (q2 :: os2) ?_ ?_ hotail
              · simp at hlen ⊢; omega
              · intro p hp
                rcases List.mem_cons.mp hp with rfl | hp2
                · simp; linarith
                · exact hstail p hp2
            rw [hres]
        · subst heq
          cases os with
          | nil =>
            rw [wsOuter_last ms po mo po ss le_rfl]
            rw [coupling_cons_le ms po mo po ss [] le_rfl]
            rw [sub_self]
            rw [movesCost_cons3, movesCost_cons3]
            rw [coupling_cost_zero_head ss [] mo hstail]
            rw [coupling_nil_right]
          | cons q2 os2 =>
            obtain ⟨mq, pq⟩ := q2
            have hpq : 0 < pq := hotail (mq, pq) (by simp)
            rw [wsOuter_consume ms po mo po ss (mq, pq) os2 le_rfl]
            rw [sub_self]
            rw [wsOuter_yield ms 0 mq pq ss os2 (by linarith)]
            rw [coupling_cons_le ms po mo po ss ((mq, pq) :: os2) le_rfl]
            rw [sub_self]
            rw [movesCost_cons3, movesCost_cons3, movesCost_cons3]
            rw [coupling_cost_zero_head ss ((mq, pq) :: os2) mo hstail]
            rw [sub_zero]
            have hres : movesCost (wsOuter ss ((mq, pq) :: os2)) =
                movesCost (coupling ss ((mq, pq) :: os2)) := by
              refine ih ss ((mq, pq) :: os2) ?_ hstail hotail
              simp at hlen ⊢; omega
            rw [hres]
            ring
        · rw [wsOuter_yield ms ps mo po ss os (not_le.mpr hgt)]
          rw [coupling_cons_le ms ps mo po ss os (le_of_lt hgt)]
          rw [movesCost_cons3, movesCost_cons3]
          have hres : movesCost (wsOuter ss ((mo, po - ps) :: os)) =
              movesCost (coupling ss ((mo, po - ps) :: os)) := by
            refine ih ss ((mo, po - ps) :: os) ?_ hstail ?_
            · simp at hlen ⊢; omega
            · intro p hp
              rcases List.mem_cons.mp hp with rfl | hp2
              · simp; linarith
              · exact hotail p hp2
          rw [hres]

theorem coupling_cost_symm : ∀ (n : ℕ) (s o : List Peak),
    s.length + o.length ≤ n → allPos s → allPos o →
    movesCost (coupling s o) = movesCost (coupling o s) := by
  intro n
  induction n with
  | zero =>
    intro s o hlen _ _
    have hs : s = [] := List.eq_nil_of_length_eq_zero (by omega)
    have ho : o = [] := List.eq_nil_of_length_eq_zero (by omega)
    subst hs; subst ho
    rfl
  | succ n ih =>
    intro s o hlen hs ho
    cases s with
    | nil => rw [coupling_nil_left, coupling_nil_right]
    | cons q ss =>
      obtain ⟨ms, ps⟩ := q
      cases o with
      | nil => rw [coupling_nil_left, coupling_nil_right]
      | cons r os =>
        obtain ⟨mo, po⟩ := r
        have hps : 0 < ps := hs (ms, ps) (by simp)
        have hpo : 0 < po := ho (mo, po) (by simp)
        have hstail : allPos ss := fun p hp => hs p (by simp [hp])
        have hotail : allPos os := fun p hp => ho p (by simp [hp])
        rcases lt_trichotomy ps po with hlt | heq | hgt
        · rw [coupling_cons_le ms ps mo po ss os (le_of_lt hlt)]
          rw [coupling_cons_gt mo po ms ps os ss (not_le.mpr hlt)]
          rw [movesCost_cons3, movesCost_cons3]
          rw [abs_sub_comm mo ms]
          have hres : movesCost (coupling ss ((mo, po - ps) :: os)) =
              movesCost (coupling ((mo, po - ps) :: os) ss) := by
            refine ih ss ((mo, po - ps) :: os) (by simp at hlen ⊢; omega) hstail ?_
            intro p hp
            rcases List.mem_cons.mp hp with rfl | hp2
            · simp; linarith
            · exact hotail p hp2
          rw [hres]
        · subst heq
          rw [coupling_cons_le ms ps mo ps ss os le_rfl]
          rw [coupling_cons_le mo ps ms ps os ss le_rfl]
          rw [movesCost_cons3, movesCost_cons3]
          rw [abs_sub_comm mo ms]
          rw [sub_self]
          rw [coupling_cost_zero_head ss os mo hstail]
          rw [coupling_cost_zero_head os ss ms hotail]
          rw [ih ss os (by simp at hlen ⊢; omega) hstail hotail]
        · rw [coupling_cons_gt ms ps mo po ss os (not_le.mpr hgt)]
          rw [coupling_cons_le mo po ms ps os ss (le_of_lt hgt)]
          rw [movesCost_cons3, movesCost_cons3]
          rw [abs_sub_comm mo ms]
          have hres : movesCost (coupling ((ms, ps - po) :: ss) os) =
              movesCost (coupling os ((ms, ps - po) :: ss)) := by
            refine ih ((ms, ps - po) :: ss) os (by simp at hlen ⊢; omega) ?_ hotail
            intro p hp
            rcases List.mem_cons.mp hp with rfl | hp2
            · simp; linarith
            · exact hstail p hp2
          rw [hres]

/-- Claim C2: for canonical measures of total weight 1 the distance is
symmetric and nonnegative, although the sweep treats its two arguments
asymmetrically. -/
theorem wsdistance_symmetric_nonneg (a b : List Peak)
    (ha : canonical a) (hb : canonical b)
    (hta : totalWeight a = 1) (htb : totalWeight b = 1) :
    WSDistance a b = WSDistance b a ∧
      ∃ d, WSDistance a b = Except.ok d ∧ 0 ≤ d := by
  have ht0 : (0 : ℚ) < pruneThreshold := by norm_num [pruneThreshold]
  have hposa : allPos a := fun p hp => lt_trans ht0 (ha.2 p hp)
  have hposb : allPos b := fun p hp => lt_trans ht0 (hb.2 p hp)
  have hga : npIsClose (totalWeight a) 1 := by rw [hta]; norm_num [npIsClose]
  have hgb : npIsClose (totalWeight b) 1 := by rw [htb]; norm_num [npIsClose]
  have hcost : movesCost (WSDistanceMoves a b) = movesCost (WSDistanceMoves b a) := by
    unfold WSDistanceMoves
    calc movesCost (wsOuter a b)
        = movesCost (coupling a b) :=
          wsOuter_coupling_cost (a.length + b.length) a b le_rfl hposa hposb
      _ = movesCost (coupling b a) :=
          coupling_cost_symm (a.length + b.length) a b le_rfl hposa hposb
      _ = movesCost (wsOuter b a) :=
          (wsOuter_coupling_cost (b.length + a.length) b a le_rfl hposb hposa).symm
  have hnn : 0 ≤ movesCost (WSDistanceMoves a b) := by
    refine movesCost_nonneg _ ?_
    exact wsOuter_nonneg a b (fun p hp => le_of_lt (hposa p hp))
      (fun p hp => le_of_lt (hposb p hp))
  constructor
  · unfold WSDistance
    simp only [hga, hgb, not_true_eq_false, if_false]
    rw [hcost]
  · refine ⟨movesCost (WSDistanceMoves a b), ?_, hnn⟩
    unfold WSDistance
    simp only [hga, hgb, not_true_eq_false, if_false]

/-- Witness for C2 at the spec's example pair of normalized measures. -/
theorem wsdistance_symmetric_nonneg_witness :
    WSDistance [((100 : ℚ), 1 / 2), (101, 1 / 2)] [((100 : ℚ), 3 / 10), (101, 7 / 10)] =
        WSDistance [((100 : ℚ), 3 / 10), (101, 7 / 10)] [((100 : ℚ), 1 / 2), (101, 1 / 2)] ∧
      ∃ d, WSDistance [((100 : ℚ), 1 / 2), (101, 1 / 2)]
          [((100 : ℚ), 3 / 10), (101, 7 / 10)] = Except.ok d ∧ 0 ≤ d := by
  apply wsdistance_symmetric_nonneg
  · refine ⟨?_, ?_⟩
    · simp [List.chain'_cons, posLt]; norm_num
    · intro p hp; fin_cases hp <;> norm_num [pruneThreshold]
  · refine ⟨?_, ?_⟩
    · simp [List.chain'_cons, posLt]; norm_num
    · intro p hp; fin_cases hp <;> norm_num [pruneThreshold]
  · norm_num [totalWeight]
  · norm_num [totalWeight]

/-! ### The canonical form of a merged conf list, characterized by `posW` -/

theorem posW_nil (m : ℚ) : posW [] m = 0 := rfl

theorem posW_cons (a b m : ℚ) (l : List Peak) :
    posW ((a, b) :: l) m = (if a = m then b else 0) + posW l m := by
  by_cases h : a = m
  · simp [posW, List.filter_cons, h]
  · simp [posW, List.filter_cons, h]

theorem posW_append (l1 l2 : List Peak) (m : ℚ) :
    posW (l1 ++ l2) m = posW l1 m + posW l2 m := by
  simp [posW, List.filter_append]

theorem posW_perm {l1 l2 : List Peak} (h : l1.Perm l2) (m : ℚ) :
    posW l1 m = posW l2 m :=
  ((h.filter _).map Prod.snd).sum_eq

theorem posW_eq_zero_of_not_mem (l : List Peak) (m : ℚ)
    (h : m ∉ l.map Prod.fst) : posW l m = 0 := by
  induction l with
  | nil => rfl
  | cons q rest ih =>
    obtain ⟨a, b⟩ := q
    simp only [List.map_cons, List.mem_cons, not_or] at h
    rw [posW_cons, if_neg (fun hh => h.1 hh.symm), zero_add]
    exact ih h.2

theorem posW_nonneg (l : List Peak) (m : ℚ) (hw : ∀ p ∈ l, 0 ≤ p.2) :
    0 ≤ posW l m := by
  refine List.sum_nonneg ?_
  intro x hx
  obtain ⟨p, hp, rfl⟩ := List.mem_map.mp hx
  exact hw p (List.mem_of_mem_filter hp)

theorem posW_gt_threshold (l : List Peak) (m : ℚ)
    (hw : ∀ p ∈ l, pruneThreshold < p.2) (hm : m ∈ l.map Prod.fst) :
    pruneThreshold < posW l m := by
  induction l with
  | nil => simp at hm
  | cons q rest ih =>
    obtain ⟨a, b⟩ := q
    rw [posW_cons]
    by_cases hcase : a = m
    · rw [if_pos hcase]
      have hb : pruneThreshold < b := hw (a, b) (by simp)
      have hrest : 0 ≤ posW rest m :=
        posW_nonneg rest m (fun p hp =>
          le_of_lt (lt_trans (by norm_num [pruneThreshold]) (hw p (by simp [hp]))))
      linarith
    · rw [if_neg hcase, zero_add]
      refine ih (fun p hp => hw p (by simp [hp])) ?_
      simp only [List.map_cons, List.mem_cons] at hm
      rcases hm with h | h
      · exact absurd h.symm hcase
      · exact h

theorem not_mem_map_fst_of_forall_lt (rest : List Peak) (a : ℚ)
    (h : ∀ x ∈ rest, a < x.1) : a ∉ rest.map Prod.fst := by
  intro hmem
  obtain ⟨p, hp, hpa⟩ := List.mem_map.mp hmem
  have := h p hp
  rw [hpa] at this
  exact lt_irrefl a this

theorem weight_eq_posW : ∀ (r : List Peak), r.Chain' posLt →
    ∀ p ∈ r, p.2 = posW r p.1 := by
  intro r
  induction r with
  | nil => intro _ p hp; simp at hp
  | cons q rest ih =>
    obtain ⟨a, b⟩ := q
    intro hch p hp
    obtain ⟨hhead, htail⟩ := chain'_posLt_cons_iff.mp hch
    rcases List.mem_cons.mp hp with rfl | hp2
    · rw [posW_cons, if_pos rfl,
        posW_eq_zero_of_not_mem rest a (not_mem_map_fst_of_forall_lt rest a hhead)]
      ring
    · rw [posW_cons]
      have ha : a ≠ p.1 := ne_of_lt (hhead p hp2)
      rw [if_neg ha, zero_add]
      exact ih htail p hp2

theorem strict_sorted_posW_unique : ∀ (r1 r2 : List Peak),
    r1.Chain' posLt → r2.Chain' posLt → allPos r1 → allPos r2 →
    (∀ m, posW r1 m = posW r2 m) → r1 = r2 := by
  intro r1
  induction r1 with
  | nil =>
    intro r2 _ hch2 _ hpos2 heq
    cases r2 with
    | nil => rfl
    | cons q rest =>
      obtain ⟨a, b⟩ := q
      exfalso
      obtain ⟨hhead, _⟩ := chain'_posLt_cons_iff.mp hch2
      have h := heq a
      rw [posW_nil, posW_cons, if_pos rfl,
        posW_eq_zero_of_not_mem rest a (not_mem_map_fst_of_forall_lt rest a hhead)] at h
      have hb : 0 < b := hpos2 (a, b) (by simp)
      linarith
  | cons q rest ih =>
    obtain ⟨a, b⟩ := q
    intro r2 hch1 hch2 hpos1 hpos2 heq
    obtain ⟨hhead1, htail1⟩ := chain'_posLt_cons_iff.mp hch1
    cases r2 with
    | nil =>
      exfalso
      have h := heq a
      rw [posW_nil, posW_cons, if_pos rfl,
        posW_eq_zero_of_not_mem rest a (not_mem_map_fst_of_forall_lt rest a hhead1)] at h
      have hb : 0 < b := hpos1 (a, b) (by simp)
      linarith
    | cons q2 rest2 =>
      obtain ⟨c, d⟩ := q2
      obtain ⟨hhead2, htail2⟩ := chain'_posLt_cons_iff.mp hch2
      have hb : 0 < b := hpos1 (a, b) (by simp)
      have hd : 0 < d := hpos2 (c, d) (by simp)
      have hza : posW rest a = 0 :=
        posW_eq_zero_of_not_mem rest a (not_mem_map_fst_of_forall_lt rest a hhead1)
      have hzc : posW rest2 c = 0 :=
        posW_eq_zero_of_not_mem rest2 c (not_mem_map_fst_of_forall_lt rest2 c hhead2)
      have hac : a = c := by
        by_contra hne
        rcases lt_or_gt_of_ne hne with hlt | hgt
        · have h := heq a
          rw [posW_cons, if_pos rfl, hza] at h
          rw [posW_cons, if_neg (fun hh => hne hh.symm)] at h
          rw [posW_eq_zero_of_not_mem rest2 a
            (not_mem_map_fst_of_forall_lt rest2 a
              (fun x hx => lt_trans hlt (hhead2 x hx)))] at h
          linarith
        · have h := heq c
          rw [posW_cons, if_neg (fun hh => hne hh)] at h
          rw [posW_eq_zero_of_not_mem rest c
            (not_mem_map_fst_of_forall_lt rest c
              (fun x hx => lt_trans hgt (hhead1 x hx)))] at h
          rw [posW_cons, if_pos rfl, hzc] at h
          linarith
      subst hac
      have hbd : b = d := by
        have h := heq a
        rw [posW_cons, if_pos rfl, hza] at h
        rw [posW_cons, if_pos rfl, hzc] at h
        linarith
      subst hbd
      have heqt : ∀ m, posW rest m = posW rest2 m := by
        intro m
        by_cases hm : a = m
        · subst hm
          rw [hza, hzc]
        · have h := heq m
          rw [posW_cons, if_neg hm, posW_cons, if_neg hm] at h
          linarith
      rw [ih rest2 htail1 htail2
        (fun p hp => hpos1 p (by simp [hp]))
        (fun p hp => hpos2 p (by simp [hp])) heqt]

theorem mergeLoop_spec : ∀ (rest : List Peak) (cmass cprob : ℚ), 0 ≤ cmass →
    List.Sorted posLE rest → (∀ p ∈ rest, cmass ≤ p.1) → posNonneg rest →
    mergeLoop cmass cprob (rest ++ [(-1, 0)]) ≠ [] ∧
      (mergeLoop cmass cprob (rest ++ [(-1, 0)])).Chain' posLt ∧
      (∀ p ∈ mergeLoop cmass cprob (rest ++ [(-1, 0)]), cmass ≤ p.1) ∧
      (∀ p ∈ mergeLoop cmass cprob (rest ++ [(-1, 0)]),
        p.1 = cmass ∨ p.1 ∈ rest.map Prod.fst) ∧
      (∀ m, posW (mergeLoop cmass cprob (rest ++ [(-1, 0)])) m =
        (if cmass = m then cprob else 0) + posW rest m) := by
  intro rest
  induction rest with
  | nil =>
    intro cmass cprob hm _ _ _
    have hne : (-1 : ℚ) ≠ cmass := fun h => by rw [← h] at hm; norm_num at hm
    have heq : mergeLoop cmass cprob ([] ++ [(-1, 0)]) = [(cmass, cprob)] := by
      simp [mergeLoop, hne]
    rw [heq]
    refine ⟨by simp, List.chain'_singleton _, ?_, ?_, ?_⟩
    · intro p hp
      simp at hp
      subst hp
      exact le_rfl
    · intro p hp
      simp at hp
      subst hp
      exact Or.inl rfl
    · intro m
      rw [posW_cons, posW_nil]
  | cons q rest2 ih =>
    obtain ⟨a, b⟩ := q
    intro cmass cprob hm hsorted hge hnn
    obtain ⟨hshead, hstail⟩ := List.sorted_cons.mp hsorted
    have ha_nn : 0 ≤ a := hnn (a, b) (by simp)
    by_cases hac : a = cmass
    · subst hac
      have heq : mergeLoop a cprob (((a, b) :: rest2) ++ [(-1, 0)]) =
          mergeLoop a (cprob + b) (rest2 ++ [(-1, 0)]) := by
        rw [List.cons_append]
        conv_lhs => unfold mergeLoop
        rw [if_neg (by simp)]
      rw [heq]
      obtain ⟨i1, i2, i3, i4, i5⟩ := ih a (cprob + b) hm hstail
        (fun p hp => hshead p hp) (fun p hp => hnn p (by simp [hp]))
      refine ⟨i1, i2, i3, ?_, ?_⟩
      · intro p hp
        rcases i4 p hp with h | h
        · exact Or.inl h
        · exact Or.inr (by simp [h])
      · intro m
        rw [i5 m, posW_cons]
        by_cases hma : a = m
        · rw [if_pos hma, if_pos hma, if_pos hma]; ring
        · rw [if_neg hma, if_neg hma, if_neg hma]; ring
    · have hlt : cmass < a := lt_of_le_of_ne (hge (a, b) (by simp)) (fun h => hac h.symm)
      have heq : mergeLoop cmass cprob (((a, b) :: rest2) ++ [(-1, 0)]) =
          (cmass, cprob) :: mergeLoop a b (rest2 ++ [(-1, 0)]) := by
        rw [List.cons_append]
        conv_lhs => unfold mergeLoop
        rw [if_pos hac]
      rw [heq]
      obtain ⟨i1, i2, i3, i4, i5⟩ := ih a b ha_nn hstail
        (fun p hp => hshead p hp) (fun p hp => hnn p (by simp [hp]))
      refine ⟨by simp, ?_, ?_, ?_, ?_⟩
      · rw [chain'_posLt_cons_iff]
        exact ⟨fun x hx => lt_of_lt_of_le hlt (i3 x hx), i2⟩
      · intro p hp
        rcases List.mem_cons.mp hp with rfl | hp2
        · exact le_rfl
        · exact le_trans (le_of_lt hlt) (i3 p hp2)
      · intro p hp
        rcases List.mem_cons.mp hp with rfl | hp2
        · exact Or.inl rfl
        · rcases i4 p hp2 with h | h
          · exact Or.inr (by simp [h])
          · exact Or.inr (by simp [h])
      · intro m
        rw [posW_cons, i5 m, posW_cons]

theorem merge_confs_sorted_spec (l : List Peak) (hs : List.Sorted posLE l)
    (hne : l ≠ []) (hnn : posNonneg l) (hw : ∀ p ∈ l, pruneThreshold < p.2) :
    ∃ r, merge_confs l = some r ∧ r.Chain' posLt ∧ r ≠ [] ∧
      (∀ p ∈ r, p.1 ∈ l.map Prod.fst ∧ p.2 = posW l p.1) ∧
      (∀ m, posW r m = posW l m) := by
  cases l with
  | nil => exact absurd rfl hne
  | cons q rest =>
    obtain ⟨m0, p0⟩ := q
    have hm0 : ∀ p ∈ (m0, p0) :: rest, m0 ≤ p.1 := by
      intro p hp
      rcases List.mem_cons.mp hp with rfl | hp2
      · exact le_rfl
      · exact (List.sorted_cons.mp hs).1 p hp2
    obtain ⟨o_ne, o_chain, _, o_pos, o_posW⟩ := mergeLoop_spec ((m0, p0) :: rest) m0 0
      (hnn (m0, p0) (by simp)) hs hm0 hnn
    have hposW : ∀ m, posW (mergeLoop m0 0 (((m0, p0) :: rest) ++ [(-1, 0)])) m =
        posW ((m0, p0) :: rest) m := by
      intro m
      rw [o_posW m]
      simp
    have hposmem : ∀ p ∈ mergeLoop m0 0 (((m0, p0) :: rest) ++ [(-1, 0)]),
        p.1 ∈ ((m0, p0) :: rest).map Prod.fst := by
      intro p hp
      rcases o_pos p hp with h | h
      · rw [h]; simp
      · exact h
    have hwout : ∀ p ∈ mergeLoop m0 0 (((m0, p0) :: rest) ++ [(-1, 0)]),
        p.2 = posW ((m0, p0) :: rest) p.1 := by
      intro p hp
      rw [← hposW]
      exact weight_eq_posW _ o_chain p hp
    have hwt : ∀ p ∈ mergeLoop m0 0 (((m0, p0) :: rest) ++ [(-1, 0)]),
        pruneThreshold < p.2 := by
      intro p hp
      rw [hwout p hp]
      exact posW_gt_threshold _ _ hw (hposmem p hp)
    have hfilter : (mergeLoop m0 0 (((m0, p0) :: rest) ++ [(-1, 0)])).filter
        (fun p => decide (pruneThreshold < p.2)) =
        mergeLoop m0 0 (((m0, p0) :: rest) ++ [(-1, 0)]) := by
      rw [List.filter_eq_self]
      intro p hp
      simpa using hwt p hp
    refine ⟨mergeLoop m0 0 (((m0, p0) :: rest) ++ [(-1, 0)]), ?_, o_chain, o_ne,
      fun p hp => ⟨hposmem p hp, hwout p hp⟩, hposW⟩
    rw [show merge_confs ((m0, p0) :: rest) =
        some ((mergeLoop m0 0 (((m0, p0) :: rest) ++ [(-1, 0)])).filter
          (fun p => decide (pruneThreshold < p.2))) from rfl]
    rw [hfilter]

theorem set_confs_spec (l : List Peak) (hne : l ≠ []) (hnn : posNonneg l)
    (hw : ∀ p ∈ l, pruneThreshold < p.2) :
    ∃ r, set_confs l = some r ∧ r.Chain' posLt ∧ r ≠ [] ∧
      (∀ p ∈ r, p.1 ∈ l.map Prod.fst ∧ p.2 = posW l p.1) ∧
      (∀ m, posW r m = posW l m) := by
  have hperm := List.perm_insertionSort posLE l
  have hsne : List.insertionSort posLE l ≠ [] := by
    intro h
    exact hne (List.Perm.eq_nil (h ▸ hperm).symm)
  obtain ⟨r, hmc, hch, hrne, hmem, hposW⟩ :=
    merge_confs_sorted_spec (List.insertionSort posLE l)
      (List.sorted_insertionSort posLE l) hsne
      (fun p hp => hnn p (hperm.mem_iff.mp hp))
      (fun p hp => hw p (hperm.mem_iff.mp hp))
  refine ⟨r, hmc, hch, hrne, ?_, ?_⟩
  · intro p hp
    obtain ⟨h1, h2⟩ := hmem p hp
    exact ⟨(hperm.map Prod.fst).mem_iff.mp h1, by rw [h2]; exact posW_perm hperm p.1⟩
  · intro m
    rw [hposW m]
    exact posW_perm hperm m

/-! ### Claim C7: reference filtering -/

theorem chain'_lt_getD_le (masses : List ℚ) (hch : masses.Chain' (· < ·))
    (i j : ℕ) (hij : i ≤ j) (hj : j < masses.length) :
    masses.getD i 0 ≤ masses.getD j 0 := by
  have hpw := List.chain'_iff_pairwise.mp hch
  have hi : i < masses.length := lt_of_le_of_lt hij hj
  rw [masses.getD_eq_getElem 0 hi, masses.getD_eq_getElem 0 hj]
  rcases lt_or_eq_of_le hij with hlt | heq
  · exact le_of_lt (List.pairwise_iff_getElem.mp hpw i j hi hj hlt)
  · subst heq; exact le_rfl

theorem advanceF_spec (masses : List ℚ) (mz : ℚ) :
    ∀ (fuel index : ℕ), masses.length - index ≤ fuel → index < masses.length →
      (index = 0 ∨ masses.getD index 0 < mz) →
      (advanceF masses mz fuel index < masses.length ∧
        index ≤ advanceF masses mz fuel index ∧
        (advanceF masses mz fuel index = 0 ∨
          masses.getD (advanceF masses mz fuel index) 0 < mz) ∧
        (advanceF masses mz fuel index + 1 < masses.length →
          ¬ masses.getD (advanceF masses mz fuel index + 1) 0 < mz)) := by
  intro fuel
  induction fuel with
  | zero => intro index h hidx _; omega
  | succ fuel ih =>
    intro index hfuel hidx hinv
    by_cases hg : index + 1 < masses.length ∧ masses.getD (index + 1) 0 < mz
    · have heq : advanceF masses mz (fuel + 1) index = advanceF masses mz fuel (index + 1) := by
        conv_lhs => unfold advanceF
        rw [if_pos hg]
      rw [heq]
      obtain ⟨j1, j2, j3, j4⟩ := ih (index + 1) (by omega) hg.1 (Or.inr hg.2)
      exact ⟨j1, by omega, j3, j4⟩
    · have heq : advanceF masses mz (fuel + 1) index = index := by
        conv_lhs => unfold advanceF
        rw [if_neg hg]
      rw [heq]
      exact ⟨hidx, le_rfl, hinv, fun h1 hlt => hg ⟨h1, hlt⟩⟩

/-- A peak is within the margin of some reference position iff it is within
margin of one of the two bracketing positions tracked by the sweep. -/
theorem bracket_iff (masses : List ℚ) (hch : masses.Chain' (· < ·)) (margin mz : ℚ)
    (j : ℕ) (hj : j < masses.length) (hjlow : j = 0 ∨ masses.getD j 0 < mz)
    (hjhigh : j + 1 < masses.length → ¬ masses.getD (j + 1) 0 < mz) :
    ((|mz - masses.getD j 0| ≤ margin ∨
        (j + 1 < masses.length ∧ |mz - masses.getD (j + 1) 0| ≤ margin)) ↔
      ∃ m ∈ masses, |mz - m| ≤ margin) := by
  constructor
  · rintro (h | ⟨hlt, h⟩)
    · refine ⟨masses.getD j 0, ?_, h⟩
      rw [masses.getD_eq_getElem 0 hj]
      exact masses.getElem_mem hj
    · refine ⟨masses.getD (j + 1) 0, ?_, h⟩
      rw [masses.getD_eq_getElem 0 hlt]
      exact masses.getElem_mem hlt
  · rintro ⟨m, hm, hmle⟩
    obtain ⟨i, hi, rfl⟩ := List.mem_iff_getElem.mp hm
    rw [← masses.getD_eq_getElem 0 hi] at hmle
    by_cases hij : i ≤ j
    · left
      have hmono := chain'_lt_getD_le masses hch i j hij hj
      rcases hjlow with rfl | hjlt
      · have hi0 : i = 0 := by omega
        subst hi0
        exact hmle
      · have h1 : mz - masses.getD i 0 ≤ |mz - masses.getD i 0| := le_abs_self _
        rw [abs_of_pos (by linarith)]
        linarith
    · right
      push_neg at hij
      have hj1 : j + 1 < masses.length := by omega
      refine ⟨hj1, ?_⟩
      have hge : ¬ masses.getD (j + 1) 0 < mz := hjhigh hj1
      have hmono := chain'_lt_getD_le masses hch (j + 1) i (by omega) hi
      have h1 : masses.getD i 0 - mz ≤ |mz - masses.getD i 0| := by
        rw [abs_sub_comm]
        exact le_abs_self _
      rw [abs_sub_comm, abs_of_nonneg (by linarith [not_lt.mp hge])]
      linarith [not_lt.mp hge]

theorem faSweep_cons (masses : List ℚ) (margin mz ab : ℚ) (index : ℕ)
    (rest : List Peak) :
    faSweep masses margin index ((mz, ab) :: rest) =
      if |mz - masses.getD (advanceF masses mz masses.length index) 0| ≤ margin ∨
          (advanceF masses mz masses.length index + 1 < masses.length ∧
            |mz - masses.getD (advanceF masses mz masses.length index + 1) 0| ≤ margin)
      then (mz, ab) :: faSweep masses margin (advanceF masses mz masses.length index) rest
      else faSweep masses margin (advanceF masses mz masses.length index) rest := by
  conv_lhs => unfold faSweep

theorem faSweep_filter (masses : List ℚ) (margin : ℚ) (hch : masses.Chain' (· < ·)) :
    ∀ (expl : List Peak), expl.Chain' posLt →
    ∀ index, index < masses.length →
      (index = 0 ∨ ∀ p ∈ expl, masses.getD index 0 < p.1) →
      faSweep masses margin index expl =
        expl.filter (fun p => masses.any (fun m => decide (|p.1 - m| ≤ margin))) := by
  intro expl
  induction expl with
  | nil => intro _ index _ _; rfl
  | cons q rest ih =>
    obtain ⟨mz, ab⟩ := q
    intro hche index hidx hinv
    obtain ⟨hhead, htail⟩ := chain'_posLt_cons_iff.mp hche
    have hinv1 : index = 0 ∨ masses.getD index 0 < mz := by
      rcases hinv with h | h
      · exact Or.inl h
      · exact Or.inr (h (mz, ab) (by simp))
    obtain ⟨hjlen, hjge, hjlow, hjhigh⟩ :=
      advanceF_spec masses mz masses.length index (by omega) hidx hinv1
    have hiff := bracket_iff masses hch margin mz
      (advanceF masses mz masses.length index) hjlen hjlow hjhigh
    have hnext : advanceF masses mz masses.length index = 0 ∨
        ∀ p ∈ rest, masses.getD (advanceF masses mz masses.length index) 0 < p.1 := by
      rcases hjlow with h | h
      · exact Or.inl h
      · exact Or.inr (fun p hp => lt_trans h (hhead p hp))
    rw [faSweep_cons, ih htail _ hjlen hnext, List.filter_cons]
    by_cases hcond : ∃ m ∈ masses, |mz - m| ≤ margin
    · rw [if_pos (hiff.mpr hcond)]
      have hb : (masses.any (fun m => decide (|(mz, ab).1 - m| ≤ margin))) = true := by
        rw [List.any_eq_true]
        obtain ⟨m, hm, hle⟩ := hcond
        exact ⟨m, hm, by simpa using hle⟩
      rw [if_pos hb]
    · rw [if_neg (fun h => hcond (hiff.mp h))]
      have hb : ¬ (masses.any (fun m => decide (|(mz, ab).1 - m| ≤ margin))) = true := by
        rw [List.any_eq_true]
        rintro ⟨m, hm, hle⟩
        exact hcond ⟨m, hm, by simpa using hle⟩
      rw [if_neg hb]

/-- Claim C7: reference filtering keeps exactly the experimental peaks lying
within `margin` of some reference peak, via the single sorted sweep. -/
theorem filter_against_theoretical_spec (expl : List Peak) (ths : List (List Peak))
    (margin : ℚ) (hexp : expl.Chain' posLt)
    (hths : ∀ s ∈ ths, (∀ p ∈ s, pruneThreshold < p.2) ∧ posNonneg s)
    (hne : ths.flatten ≠ []) :
    filter_against_theoretical expl ths margin =
      some (expl.filter
        (fun p => ths.flatten.any (fun q => decide (|p.1 - q.1| ≤ margin)))) := by
  have hflnn : posNonneg ths.flatten := by
    intro p hp
    obtain ⟨s, hsmem, hpmem⟩ := List.mem_flatten.mp hp
    exact (hths s hsmem).2 p hpmem
  have hflw : ∀ p ∈ ths.flatten, pruneThreshold < p.2 := by
    intro p hp
    obtain ⟨s, hsmem, hpmem⟩ := List.mem_flatten.mp hp
    exact (hths s hsmem).1 p hpmem
  obtain ⟨th, hsc, hch, hthne, hmem, hposW⟩ := set_confs_spec ths.flatten hne hflnn hflw
  unfold filter_against_theoretical
  rw [hsc]
  show (if th.isEmpty = true ∧ ¬ expl.isEmpty = true then none
    else some (faSweep (th.map Prod.fst) margin 0 expl)) = _
  rw [if_neg (by simp [hthne])]
  have hmch : (th.map Prod.fst).Chain' (· < ·) := List.chain'_map_of_chain' Prod.fst
    (fun _ _ h => h) hch
  have hmlen : 0 < (th.map Prod.fst).length := by
    simp [List.length_pos]
    exact hthne
  rw [faSweep_filter (th.map Prod.fst) margin hmch expl hexp 0 hmlen (Or.inl rfl)]
  have hsetiff : ∀ (x : ℚ), x ∈ th.map Prod.fst ↔ x ∈ ths.flatten.map Prod.fst := by
    intro x
    constructor
    · intro hx
      obtain ⟨p, hp, rfl⟩ := List.mem_map.mp hx
      exact (hmem p hp).1
    · intro hx
      by_contra hnot
      have h0 : posW th x = 0 := posW_eq_zero_of_not_mem th x hnot
      have hgt : pruneThreshold < posW ths.flatten x := posW_gt_threshold _ _ hflw hx
      rw [hposW x] at h0
      rw [h0] at hgt
      norm_num [pruneThreshold] at hgt
  have hpred : ∀ p ∈ expl,
      ((th.map Prod.fst).any (fun m => decide (|p.1 - m| ≤ margin))) =
        (ths.flatten.any (fun q => decide (|p.1 - q.1| ≤ margin))) := by
    intro p _
    rw [Bool.eq_iff_iff, List.any_eq_true, List.any_eq_true]
    constructor
    · rintro ⟨m, hm, hle⟩
      obtain ⟨q, hq, rfl⟩ := List.mem_map.mp ((hsetiff m).mp hm)
      exact ⟨q, hq, hle⟩
    · rintro ⟨q, hq, hle⟩
      refine ⟨q.1, (hsetiff q.1).mpr ?_, hle⟩
      exact List.mem_map.mpr ⟨q, hq, rfl⟩
  rw [List.filter_congr hpred]

/-- Witness for C7 at the spec's example: peaks `[10, 20, 50]` filtered
against references `[10.1, 49.9]` with margin `0.2` keep exactly 10 and 50. -/
theorem filter_against_theoretical_spec_witness :
    filter_against_theoretical [((10 : ℚ), 1), (20, 1), (50, 1)]
        [[((101 : ℚ) / 10, 1), (499 / 10, 1)]] (2 / 10) =
      some [((10 : ℚ), 1), (50, 1)] := by
  rw [filter_against_theoretical_spec [((10 : ℚ), 1), (20, 1), (50, 1)]
      [[((101 : ℚ) / 10, 1), (499 / 10, 1)]] (2 / 10)
      (by simp [List.chain'_cons, posLt]; norm_num)
      (by
        intro s hs
        fin_cases hs
        constructor
        · intro p hp; fin_cases hp <;> norm_num [pruneThreshold]
        · intro p hp; fin_cases hp <;> norm_num)
      (by simp)]
  norm_num [List.filter_cons, abs_le]

/-! ### Claim C5: the heap order and heap pops of ScalarProduct -/

theorem entLE_mass {a b : Entry} (h : entLE a b = true) : a.1.1 ≤ b.1.1 := by
  unfold entLE at h
  simp only [Bool.or_eq_true, Bool.and_eq_true, decide_eq_true_eq] at h
  rcases h with h | ⟨h, _⟩
  · exact le_of_lt h
  · exact le_of_eq h

theorem entLE_total (a b : Entry) : entLE a b = true ∨ entLE b a = true := by
  unfold entLE
  simp only [Bool.or_eq_true, Bool.and_eq_true, decide_eq_true_eq]
  rcases lt_trichotomy a.1.1 b.1.1 with h1 | h1 | h1
  · exact Or.inl (Or.inl h1)
  · rcases lt_trichotomy a.1.2 b.1.2 with h2 | h2 | h2
    · exact Or.inl (Or.inr ⟨h1, Or.inl h2⟩)
    · rcases lt_trichotomy a.2.1 b.2.1 with h3 | h3 | h3
      · exact Or.inl (Or.inr ⟨h1, Or.inr ⟨h2, Or.inl h3⟩⟩)
      · rcases le_total a.2.2 b.2.2 with h4 | h4
        · exact Or.inl (Or.inr ⟨h1, Or.inr ⟨h2, Or.inr ⟨h3, h4⟩⟩⟩)
        · exact Or.inr (Or.inr ⟨h1.symm, Or.inr ⟨h2.symm, Or.inr ⟨h3.symm, h4⟩⟩⟩)
      · exact Or.inr (Or.inr ⟨h1.symm, Or.inr ⟨h2.symm, Or.inl h3⟩⟩)
    · exact Or.inr (Or.inr ⟨h1.symm, Or.inl h2⟩)
  · exact Or.inr (Or.inl h1)

theorem entLE_trans {a b c : Entry} (hab : entLE a b = true)
    (hbc : entLE b c = true) : entLE a c = true := by
  unfold entLE at *
  simp only [Bool.or_eq_true, Bool.and_eq_true, decide_eq_true_eq] at *
  rcases hab with h1 | ⟨e1, hab2⟩
  · rcases hbc with h2 | ⟨e2, _⟩
    · exact Or.inl (lt_trans h1 h2)
    · exact Or.inl (lt_of_lt_of_le h1 (le_of_eq e2))
  · rcases hbc with h2 | ⟨e2, hbc2⟩
    · exact Or.inl (lt_of_le_of_lt (le_of_eq e1) h2)
    · refine Or.inr ⟨e1.trans e2, ?_⟩
      rcases hab2 with h1 | ⟨f1, hab3⟩
      · rcases hbc2 with h2 | ⟨f2, _⟩
        · exact Or.inl (lt_trans h1 h2)
        · exact Or.inl (lt_of_lt_of_le h1 (le_of_eq f2))
      · rcases hbc2 with h2 | ⟨f2, hbc3⟩
        · exact Or.inl (lt_of_le_of_lt (le_of_eq f1) h2)
        · refine Or.inr ⟨f1.trans f2, ?_⟩
          rcases hab3 with h1 | ⟨g1, hab4⟩
          · rcases hbc3 with h2 | ⟨g2, _⟩
            · exact Or.inl (lt_trans h1 h2)
            · exact Or.inl (lt_of_lt_of_le h1 (le_of_eq g2))
          · rcases hbc3 with h2 | ⟨g2, hbc4⟩
            · exact Or.inl (lt_of_le_of_lt (le_of_eq g1) h2)
            · exact Or.inr ⟨g1.trans g2, le_trans hab4 hbc4⟩

theorem popMin_eq_none {Q : List Entry} (h : popMin Q = none) : Q = [] := by
  cases Q with
  | nil => rfl
  | cons e es =>
    exfalso
    unfold popMin at h
    rcases hpm : popMin es with _ | ⟨m, rest⟩ <;> rw [hpm] at h
    · simp at h
    · by_cases hle : entLE e m <;> simp [hle] at h

theorem popMin_perm : ∀ (Q : List Entry) (e : Entry) (rest : List Entry),
    popMin Q = some (e, rest) → Q.Perm (e :: rest) := by
  intro Q
  induction Q with
  | nil => intro e rest h; simp [popMin] at h
  | cons a es ih =>
    intro e rest h
    unfold popMin at h
    rcases hpm : popMin es with _ | ⟨m, r⟩ <;> rw [hpm] at h
    · simp at h
      obtain ⟨rfl, rfl⟩ := h
      rw [popMin_eq_none hpm]
    · by_cases hle : entLE a m
      · simp only [hle, if_true] at h
        simp at h
        obtain ⟨rfl, rfl⟩ := h
        exact List.Perm.refl _
      · simp only [hle, if_false] at h
        simp at h
        obtain ⟨rfl, rfl⟩ := h
        exact ((ih m r hpm).cons a).trans (List.Perm.swap m a r)

theorem popMin_min : ∀ (Q : List Entry) (e : Entry) (rest : List Entry),
    popMin Q = some (e, rest) → ∀ x ∈ rest, entLE e x = true := by
  intro Q
  induction Q with
  | nil => intro e rest h; simp [popMin] at h
  | cons a es ih =>
    intro e rest h
    unfold popMin at h
    rcases hpm : popMin es with _ | ⟨m, r⟩ <;> rw [hpm] at h
    · simp at h
      obtain ⟨rfl, rfl⟩ := h
      intro x hx
      simp at hx
    · by_cases hle : entLE a m
      · simp only [hle, if_true] at h
        simp at h
        obtain ⟨rfl, rfl⟩ := h
        intro x hx
        have hxm : x ∈ m :: r := (popMin_perm es m r hpm).mem_iff.mp hx
        rcases List.mem_cons.mp hxm with rfl | hxr
        · exact hle
        · exact entLE_trans hle (ih m r hpm x hxr)
      · simp only [hle, if_false] at h
        simp at h
        obtain ⟨rfl, rfl⟩ := h
        intro x hx
        rcases List.mem_cons.mp hx with rfl | hxr
        · rcases entLE_total x m with hh | hh
          · exact absurd hh hle
          · exact hh
        · exact ih m r hpm x hxr

theorem perm_flatten {α : Type} {l1 l2 : List (List α)} (h : l1.Perm l2) :
    l1.flatten.Perm l2.flatten := by
  induction h with
  | nil => exact List.Perm.refl _
  | cons x _ ih =>
    simp only [List.flatten_cons]
    exact ih.append_left x
  | swap x y l =>
    simp only [List.flatten_cons]
    rw [← List.append_assoc, ← List.append_assoc]
    exact (List.perm_append_comm).append_right _
  | trans _ _ ih1 ih2 => exact ih1.trans ih2

theorem qMeasure_cons (spectra : List (List Peak)) (x : Entry) (L : List Entry) :
    qMeasure spectra (x :: L) = entRemLen spectra x + qMeasure spectra L + 1 := by
  simp [qMeasure]
  omega

theorem qMeasure_perm (spectra : List (List Peak)) {Q1 Q2 : List Entry}
    (h : Q1.Perm Q2) : qMeasure spectra Q1 = qMeasure spectra Q2 := by
  unfold qMeasure
  rw [(h.map (entRemLen spectra)).sum_eq, h.length_eq]

theorem chain'_drop_ge (l : List Peak) (hch : l.Chain' posLt) (i : ℕ)
    (hi : i < l.length) : ∀ q ∈ l.drop i, (l.getD i (0, 0)).1 ≤ q.1 := by
  intro q hq
  have hdrop : l.drop i = l[i] :: l.drop (i + 1) := List.drop_eq_getElem_cons hi
  rw [l.getD_eq_getElem (0, 0) hi]
  rw [hdrop] at hq
  rcases List.mem_cons.mp hq with rfl | hq2
  · exact le_rfl
  · have hchd : (l[i] :: l.drop (i + 1)).Chain' posLt := by
      rw [← hdrop]
      exact hch.sublist (List.drop_sublist i l)
    obtain ⟨hhead, _⟩ := chain'_posLt_cons_iff.mp hchd
    exact le_of_lt (hhead q hq2)

/-! ### Claim C5: the heap loop emits the scaled confs in sorted order -/

theorem remConfs_nil (spectra : List (List Peak)) (ws : List ℚ) :
    remConfs spectra ws [] = [] := rfl

theorem remConfs_cons (spectra : List (List Peak)) (ws : List ℚ) (e : Entry)
    (Q : List Entry) :
    remConfs spectra ws (e :: Q) =
      (entRem spectra e).map (fun p => (p.1, p.2 * ws.getD e.2.1 0)) ++
        remConfs spectra ws Q := by
  simp [remConfs]

theorem remConfs_perm (spectra : List (List Peak)) (ws : List ℚ)
    {Q1 Q2 : List Entry} (h : Q1.Perm Q2) :
    (remConfs spectra ws Q1).Perm (remConfs spectra ws Q2) :=
  perm_flatten (h.map _)

theorem entRem_eq_cons (spectra : List (List Peak)) (e : Entry)
    (h : entOK spectra e) :
    entRem spectra e = e.1 :: (spectra.getD e.2.1 []).drop (e.2.2 + 1) := by
  unfold entRem
  rw [List.drop_eq_getElem_cons h.2.1]
  congr 1
  exact (List.getD_eq_getElem _ _ h.2.1).symm.trans h.2.2.symm

/-- Every remaining scaled conf of an entry set bounded below by `c` has
position at least `c`. -/
theorem remConfs_lb (spectra : List (List Peak)) (ws : List ℚ)
    (hsorted : ∀ s ∈ spectra, s.Chain' posLt) (Q : List Entry)
    (hok : ∀ f ∈ Q, entOK spectra f) (c : ℚ) (hc : ∀ f ∈ Q, c ≤ f.1.1) :
    ∀ y ∈ remConfs spectra ws Q, c ≤ y.1 := by
  intro y hy
  obtain ⟨blk, hblk, hyblk⟩ := List.mem_flatten.mp hy
  obtain ⟨f, hf, rfl⟩ := List.mem_map.mp hblk
  obtain ⟨q, hq, rfl⟩ := List.mem_map.mp hyblk
  have hOK := hok f hf
  have hchain : (spectra.getD f.2.1 []).Chain' posLt := by
    rw [spectra.getD_eq_getElem [] hOK.1]
    exact hsorted _ (spectra.getElem_mem hOK.1)
  have hfq : f.1.1 ≤ q.1 := by
    have hle := chain'_drop_ge (spectra.getD f.2.1 []) hchain f.2.2 hOK.2.1 q hq
    rw [← hOK.2.2] at hle
    exact hle
  exact le_trans (hc f hf) hfq

theorem spLoopF_spec (spectra : List (List Peak)) (ws : List ℚ)
    (hsorted : ∀ s ∈ spectra, s.Chain' posLt) :
    ∀ (fuel : ℕ) (Q : List Entry), qMeasure spectra Q ≤ fuel →
      (∀ e ∈ Q, entOK spectra e) →
      (spLoopF spectra ws fuel Q).Perm (remConfs spectra ws Q) ∧
        List.Sorted posLE (spLoopF spectra ws fuel Q) := by
  intro fuel
  induction fuel with
  | zero =>
    intro Q hq _
    have hQnil : Q = [] := by
      cases Q with
      | nil => rfl
      | cons e es => rw [qMeasure_cons] at hq; omega
    subst hQnil
    exact ⟨List.Perm.refl _, List.sorted_nil⟩
  | succ fuel ih =>
    intro Q hq hok
    rcases hpm : popMin Q with _ | ⟨e, rest⟩
    · have hQnil : Q = [] := popMin_eq_none hpm
      subst hQnil
      have hstep : spLoopF spectra ws (fuel + 1) [] = [] := rfl
      rw [hstep]
      exact ⟨List.Perm.refl _, List.sorted_nil⟩
    · have hQperm : Q.Perm (e :: rest) := popMin_perm Q e rest hpm
      have heOK : entOK spectra e := hok e (hQperm.mem_iff.mpr (by simp))
      have hrestOK : ∀ f ∈ rest, entOK spectra f :=
        fun f hf => hok f (hQperm.mem_iff.mpr (by simp [hf]))
      have hmin : ∀ f ∈ rest, entLE e f = true := popMin_min Q e rest hpm
      have hmeasQ : qMeasure spectra Q = qMeasure spectra (e :: rest) :=
        qMeasure_perm spectra hQperm
      have hstep : spLoopF spectra ws (fuel + 1) Q =
          (e.1.1, e.1.2 * ws.getD e.2.1 0) ::
            spLoopF spectra ws fuel
              (if e.2.2 + 1 < (spectra.getD e.2.1 []).length
                then ((spectra.getD e.2.1 []).getD (e.2.2 + 1) (0, 0), e.2.1, e.2.2 + 1)
                  :: rest
                else rest) := by
        conv_lhs => unfold spLoopF
        rw [hpm]
      by_cases hpush : e.2.2 + 1 < (spectra.getD e.2.1 []).length
      · rw [if_pos hpush] at hstep
        have hnewOK : entOK spectra
            ((spectra.getD e.2.1 []).getD (e.2.2 + 1) (0, 0), e.2.1, e.2.2 + 1) :=
          ⟨heOK.1, hpush, rfl⟩
        have hQ2OK : ∀ f ∈ ((spectra.getD e.2.1 []).getD (e.2.2 + 1) (0, 0),
            e.2.1, e.2.2 + 1) :: rest, entOK spectra f := by
          intro f hf
          rcases List.mem_cons.mp hf with rfl | hf2
          · exact hnewOK
          · exact hrestOK f hf2
        have hmeas2 : qMeasure spectra
            (((spectra.getD e.2.1 []).getD (e.2.2 + 1) (0, 0), e.2.1, e.2.2 + 1)
              :: rest) ≤ fuel := by
          rw [qMeasure_cons]
          rw [hmeasQ, qMeasure_cons] at hq
          have h1 : entRemLen spectra e = (spectra.getD e.2.1 []).length - e.2.2 := rfl
          have h2 : entRemLen spectra
              ((spectra.getD e.2.1 []).getD (e.2.2 + 1) (0, 0), e.2.1, e.2.2 + 1) =
              (spectra.getD e.2.1 []).length - (e.2.2 + 1) := rfl
          omega
        obtain ⟨ihperm, ihsorted⟩ := ih _ hmeas2 hQ2OK
        -- decompose remConfs (e :: rest)
        have hdecomp : remConfs spectra ws (e :: rest) =
            (e.1.1, e.1.2 * ws.getD e.2.1 0) ::
              remConfs spectra ws
                (((spectra.getD e.2.1 []).getD (e.2.2 + 1) (0, 0), e.2.1, e.2.2 + 1)
                  :: rest) := by
          rw [remConfs_cons, remConfs_cons, entRem_eq_cons spectra e heOK]
          rw [List.map_cons]
          rfl
        constructor
        · rw [hstep]
          refine List.Perm.trans (ihperm.cons _) ?_
          rw [← hdecomp]
          exact (remConfs_perm spectra ws hQperm).symm
        · rw [hstep]
          rw [List.sorted_cons]
          refine ⟨?_, ihsorted⟩
          intro y hy
          have hy2 := ihperm.mem_iff.mp hy
          refine remConfs_lb spectra ws hsorted _ hQ2OK e.1.1 ?_ y hy2
          intro f hf
          rcases List.mem_cons.mp hf with rfl | hf2
          · -- the pushed entry: its conf is the next conf of e's spectrum
            show e.1.1 ≤ ((spectra.getD e.2.1 []).getD (e.2.2 + 1) (0, 0)).1
            have hchain : (spectra.getD e.2.1 []).Chain' posLt := by
              rw [spectra.getD_eq_getElem [] heOK.1]
              exact hsorted _ (spectra.getElem_mem heOK.1)
            have hmem : (spectra.getD e.2.1 []).getD (e.2.2 + 1) (0, 0) ∈
                (spectra.getD e.2.1 []).drop e.2.2 := by
              rw [List.drop_eq_getElem_cons heOK.2.1]
              rw [List.getD_eq_getElem _ _ hpush]
              right
              rw [List.drop_eq_getElem_cons hpush]
              exact List.mem_cons_self _ _
            have := chain'_drop_ge (spectra.getD e.2.1 []) hchain e.2.2 heOK.2.1 _ hmem
            rw [← heOK.2.2] at this
            exact this
          · exact entLE_mass (hmin f hf2)
      · rw [if_neg hpush] at hstep
        have hmeas2 : qMeasure spectra rest ≤ fuel := by
          rw [hmeasQ, qMeasure_cons] at hq
          omega
        obtain ⟨ihperm, ihsorted⟩ := ih rest hmeas2 hrestOK
        have hentRem : entRem spectra e = [e.1] := by
          rw [entRem_eq_cons spectra e heOK]
          rw [List.drop_eq_nil_of_le (by omega)]
        have hdecomp : remConfs spectra ws (e :: rest) =
            (e.1.1, e.1.2 * ws.getD e.2.1 0) :: remConfs spectra ws rest := by
          rw [remConfs_cons, hentRem]
          rfl
        constructor
        · rw [hstep]
          refine List.Perm.trans (ihperm.cons _) ?_
          rw [← hdecomp]
          exact (remConfs_perm spectra ws hQperm).symm
        · rw [hstep]
          rw [List.sorted_cons]
          refine ⟨?_, ihsorted⟩
          intro y hy
          have hy2 := ihperm.mem_iff.mp hy
          refine remConfs_lb spectra ws hsorted rest hrestOK e.1.1 ?_ y hy2
          intro f hf
          exact entLE_mass (hmin f hf)

/-! ### Claim C5: ScalarProduct versus iterated add + scale -/

theorem initQ_OK (spectra : List (List Peak)) (hne : ∀ s ∈ spectra, s ≠ []) :
    ∀ e ∈ initQ spectra, entOK spectra e := by
  intro e he
  obtain ⟨i, hi, rfl⟩ := List.mem_map.mp he
  have hilen : i < spectra.length := List.mem_range.mp hi
  refine ⟨hilen, ?_, rfl⟩
  rw [spectra.getD_eq_getElem [] hilen]
  exact List.length_pos.mpr (hne spectra[i] (spectra.getElem_mem hilen))

theorem scaledJoin_cons (s : List Peak) (ss : List (List Peak)) (w : ℚ)
    (ws2 : List ℚ) :
    scaledJoin (s :: ss) (w :: ws2) =
      s.map (fun p => (p.1, p.2 * w)) ++ scaledJoin ss ws2 := by
  simp [scaledJoin]

theorem remConfs_initQ (spectra : List (List Peak)) (ws : List ℚ)
    (hlen : ws.length = spectra.length) :
    remConfs spectra ws (initQ spectra) = scaledJoin spectra ws := by
  unfold remConfs scaledJoin initQ
  congr 1
  rw [List.map_map]
  apply List.ext_getElem
  · simp [hlen]
  · intro i h1 h2
    simp only [List.getElem_map, List.getElem_range, Function.comp_apply,
      List.getElem_zip]
    have hilen : i < spectra.length := by simpa using h1
    have hwlen : i < ws.length := by rw [hlen]; exact hilen
    have hg1 : spectra.getD i [] = spectra[i] := spectra.getD_eq_getElem [] hilen
    have hg2 : ws.getD i 0 = ws[i] := ws.getD_eq_getElem 0 hwlen
    show (entRem spectra (((spectra.getD i []).getD 0 (0, 0), i, 0))).map _ = _
    unfold entRem
    simp only [List.drop_zero]
    rw [hg1, hg2]

theorem ScalarProduct_spec (spectra : List (List Peak)) (ws : List ℚ)
    (hlen : ws.length = spectra.length)
    (hcs : ∀ s ∈ spectra, s.Chain' posLt ∧ s ≠ [] ∧ posNonneg s)
    (hne : spectra ≠ [])
    (hnp : ∀ sw ∈ spectra.zip ws, ∀ p ∈ sw.1, pruneThreshold < p.2 * sw.2) :
    ∃ r, ScalarProduct spectra ws = some r ∧ r.Chain' posLt ∧ r ≠ [] ∧
      allPos r ∧ (∀ m, posW r m = posW (scaledJoin spectra ws) m) := by
  have hguard : spectra.any (fun s => s.isEmpty) = false := by
    rw [List.any_eq_false]
    intro s hs
    simp [(hcs s hs).2.1]
  obtain ⟨hperm, hsorted'⟩ := spLoopF_spec spectra ws (fun s hs => (hcs s hs).1)
    (qMeasure spectra (initQ spectra)) (initQ spectra) le_rfl
    (initQ_OK spectra (fun s hs => (hcs s hs).2.1))
  have hLperm : (spLoopF spectra ws (qMeasure spectra (initQ spectra))
      (initQ spectra)).Perm (scaledJoin spectra ws) := by
    rw [← remConfs_initQ spectra ws hlen]
    exact hperm
  have hscw : ∀ p ∈ scaledJoin spectra ws, pruneThreshold < p.2 := by
    intro p hp
    obtain ⟨blk, hblk, hpblk⟩ := List.mem_flatten.mp hp
    obtain ⟨sw, hsw, rfl⟩ := List.mem_map.mp hblk
    obtain ⟨q, hq, rfl⟩ := List.mem_map.mp hpblk
    exact hnp sw hsw q hq
  have hscnn : posNonneg (scaledJoin spectra ws) := by
    intro p hp
    obtain ⟨blk, hblk, hpblk⟩ := List.mem_flatten.mp hp
    obtain ⟨sw, hsw, rfl⟩ := List.mem_map.mp hblk
    obtain ⟨q, hq, rfl⟩ := List.mem_map.mp hpblk
    exact (hcs sw.1 (List.of_mem_zip hsw).1).2.2 q hq
  have hscne : scaledJoin spectra ws ≠ [] := by
    obtain ⟨s0, ss, rfl⟩ : ∃ s0 ss, spectra = s0 :: ss := by
      cases spectra with
      | nil => exact absurd rfl hne
      | cons a l => exact ⟨a, l, rfl⟩
    obtain ⟨w0, ws2, rfl⟩ : ∃ w0 ws2, ws = w0 :: ws2 := by
      cases ws with
      | nil => simp at hlen
      | cons a l => exact ⟨a, l, rfl⟩
    rw [scaledJoin_cons]
    have : s0.map (fun p => (p.1, p.2 * w0)) ≠ [] := by
      simp [(hcs s0 (by simp)).2.1]
    intro h
    rw [List.append_eq_nil] at h
    exact this h.1
  have hLne : spLoopF spectra ws (qMeasure spectra (initQ spectra))
      (initQ spectra) ≠ [] := by
    intro h
    rw [h] at hLperm
    exact hscne hLperm.symm.eq_nil
  obtain ⟨r, hmc, hch, hrne, hmem, hposW⟩ := merge_confs_sorted_spec
    (spLoopF spectra ws (qMeasure spectra (initQ spectra)) (initQ spectra))
    hsorted' hLne
    (fun p hp => hscnn p (hLperm.mem_iff.mp hp))
    (fun p hp => hscw p (hLperm.mem_iff.mp hp))
  refine ⟨r, ?_, hch, hrne, ?_, ?_⟩
  · unfold ScalarProduct
    rw [if_neg (by rw [hguard]; simp)]
    exact hmc
  · intro p hp
    obtain ⟨h1, h2⟩ := hmem p hp
    rw [h2]
    have hgt := posW_gt_threshold _ _
      (fun q hq => hscw q (hLperm.mem_iff.mp hq)) h1
    have ht0 : (0 : ℚ) < pruneThreshold := by norm_num [pruneThreshold]
    linarith
  · intro m
    rw [hposW m]
    exact posW_perm hLperm m

theorem addScaleIter_spec : ∀ (spectra : List (List Peak)) (ws : List ℚ),
    spectra ≠ [] → spectra.length ≤ ws.length →
    (∀ s ∈ spectra, s.Chain' posLt ∧ s ≠ [] ∧ posNonneg s) →
    (∀ sw ∈ spectra.zip ws, ∀ p ∈ sw.1, pruneThreshold < p.2 * sw.2) →
    ∃ r, addScaleIter spectra ws = some r ∧ r.Chain' posLt ∧ r ≠ [] ∧
      posNonneg r ∧ (∀ p ∈ r, pruneThreshold < p.2) ∧
      (∀ m, posW r m = posW (scaledJoin spectra ws) m) := by
  intro spectra
  induction spectra with
  | nil => intro ws h; exact absurd rfl h
  | cons s ss ih =>
    intro ws _ hlen hcs hnp
    obtain ⟨w, ws2, rfl⟩ : ∃ w ws2, ws = w :: ws2 := by
      cases ws with
      | nil => simp at hlen
      | cons a l => exact ⟨a, l, rfl⟩
    have hsfacts := hcs s (by simp)
    have hsw_mem : (s, w) ∈ (s :: ss).zip (w :: ws2) := by simp
    have hmapne : s.map (fun p : Peak => (p.1, w * p.2)) ≠ [] := by
      simp [hsfacts.2.1]
    have hmapnn : posNonneg (s.map (fun p : Peak => (p.1, w * p.2))) := by
      intro p hp
      obtain ⟨q, hq, rfl⟩ := List.mem_map.mp hp
      exact hsfacts.2.2 q hq
    have hmapw : ∀ p ∈ s.map (fun p : Peak => (p.1, w * p.2)),
        pruneThreshold < p.2 := by
      intro p hp
      obtain ⟨q, hq, rfl⟩ := List.mem_map.mp hp
      have := hnp (s, w) hsw_mem q hq
      show pruneThreshold < w * q.2
      linarith [this, mul_comm w q.2]
    obtain ⟨x, hx, hxch, hxne, hxmem, hxposW⟩ :=
      set_confs_spec (s.map (fun p : Peak => (p.1, w * p.2))) hmapne hmapnn hmapw
    have hmapeq : s.map (fun p : Peak => (p.1, w * p.2)) =
        s.map (fun p : Peak => (p.1, p.2 * w)) :=
      List.map_congr_left (fun p _ => by simp [mul_comm])
    have hxposW' : ∀ m, posW x m = posW (s.map (fun p : Peak => (p.1, p.2 * w))) m := by
      intro m
      rw [hxposW m, hmapeq]
    have hxnn : posNonneg x := by
      intro p hp
      obtain ⟨h1, _⟩ := hxmem p hp
      obtain ⟨q, hq, hq2⟩ := List.mem_map.mp h1
      obtain ⟨q2, hq3, rfl⟩ := List.mem_map.mp hq
      rw [← hq2]
      exact hsfacts.2.2 q2 hq3
    have hxw : ∀ p ∈ x, pruneThreshold < p.2 := by
      intro p hp
      obtain ⟨h1, h2⟩ := hxmem p hp
      rw [h2]
      exact posW_gt_threshold _ _ hmapw h1
    cases ss with
    | nil =>
      refine ⟨x, ?_, hxch, hxne, hxnn, hxw, ?_⟩
      · rw [show addScaleIter [s] (w :: ws2) = spectrumMul s w from rfl]
        exact hx
      · intro m
        rw [hxposW' m]
        rw [show scaledJoin [s] (w :: ws2) =
          s.map (fun p : Peak => (p.1, p.2 * w)) ++ ([] : List Peak) from by
            simp [scaledJoin]]
        rw [posW_append, posW_nil, add_zero]
    | cons s2 ss2 =>
      obtain ⟨y, hy, hych, hyne, hynn, hyw, hyposW⟩ := ih ws2 (by simp)
        (by simpa using hlen)
        (fun t ht => hcs t (by simp [ht]))
        (fun sw hsw => hnp sw (by simp [hsw]))
      have hx' : spectrumMul s w = some x := hx
      have hstep : addScaleIter (s :: s2 :: ss2) (w :: ws2) = addSpec x y := by
        rw [show addScaleIter (s :: s2 :: ss2) (w :: ws2) =
          (match spectrumMul s w, addScaleIter (s2 :: ss2) ws2 with
            | some x2, some y2 => addSpec x2 y2
            | _, _ => none) from rfl]
        rw [hx', hy]
      have hxyne : x ++ y ≠ [] := by
        intro h
        rw [List.append_eq_nil] at h
        exact hxne h.1
      have hxynn : posNonneg (x ++ y) := by
        intro p hp
        rcases List.mem_append.mp hp with h | h
        · exact hxnn p h
        · exact hynn p h
      have hxyw : ∀ p ∈ x ++ y, pruneThreshold < p.2 := by
        intro p hp
        rcases List.mem_append.mp hp with h | h
        · exact hxw p h
        · exact hyw p h
      obtain ⟨r, hr, hrch, hrne, hrmem, hrposW⟩ :=
        set_confs_spec (x ++ y) hxyne hxynn hxyw
      refine ⟨r, ?_, hrch, hrne, ?_, ?_, ?_⟩
      · rw [hstep]
        exact hr
      · intro p hp
        obtain ⟨h1, _⟩ := hrmem p hp
        obtain ⟨q, hq, hq1⟩ := List.mem_map.mp h1
        rw [← hq1]
        exact hxynn q hq
      · intro p hp
        obtain ⟨h1, h2⟩ := hrmem p hp
        rw [h2]
        exact posW_gt_threshold _ _ hxyw h1
      · intro m
        rw [hrposW m, posW_append, scaledJoin_cons, posW_append]
        rw [hxposW' m, hyposW m]

/-- Claim C5 counterexample: `ScalarProduct` scales after grouping while
iterated pairwise add+scale prunes each scaled spectrum first, so with
spectra `[(1, 1e-6), (2, 1)]` (twice) and weights `1e-6` the heap merge keeps
the position-1 group (summed weight `2e-12 > 1e-12`) while the iterated
computation drops both position-1 peaks (each `1e-12`, not `> 1e-12`). -/
theorem scalarProduct_counterexample :
    ScalarProduct [[((1 : ℚ), 1 / 10 ^ 6), (2, 1)], [((1 : ℚ), 1 / 10 ^ 6), (2, 1)]]
        [1 / 10 ^ 6, 1 / 10 ^ 6] ≠
      addScaleIter [[((1 : ℚ), 1 / 10 ^ 6), (2, 1)], [((1 : ℚ), 1 / 10 ^ 6), (2, 1)]]
        [1 / 10 ^ 6, 1 / 10 ^ 6] := by
  have h1 : ScalarProduct [[((1 : ℚ), 1 / 10 ^ 6), (2, 1)], [((1 : ℚ), 1 / 10 ^ 6), (2, 1)]]
      [1 / 10 ^ 6, 1 / 10 ^ 6] = some [(1, 2 / 10 ^ 12), (2, 2 / 10 ^ 6)] := by
    norm_num [ScalarProduct, initQ, qMeasure, entRemLen, spLoopF, popMin, entLE,
      merge_confs, mergeLoop, pruneThreshold, List.range_succ, List.filter_cons]
  have h2 : addScaleIter [[((1 : ℚ), 1 / 10 ^ 6), (2, 1)], [((1 : ℚ), 1 / 10 ^ 6), (2, 1)]]
      [1 / 10 ^ 6, 1 / 10 ^ 6] = some [(2, 2 / 10 ^ 6)] := by
    norm_num [addScaleIter, spectrumMul, addSpec, set_confs, sort_confs, merge_confs,
      mergeLoop, pruneThreshold, List.insertionSort, List.orderedInsert,
      List.filter_cons, posLE]
  rw [h1, h2]
  simp

/-- Claim C5 (amended): for canonical nonempty measures with nonnegative
positions and weights such that no scaled peak falls under the `1e-12`
pruning threshold, the priority-queue weighted k-way merge equals iterated
pairwise add + scale with the same weights. -/
theorem scalarProduct_eq_addScaleIter (spectra : List (List Peak)) (ws : List ℚ)
    (hne : spectra ≠ []) (hlen : ws.length = spectra.length)
    (hcan : ∀ s ∈ spectra, canonical s ∧ s ≠ [] ∧ posNonneg s)
    (hnp : ∀ sw ∈ spectra.zip ws, ∀ p ∈ sw.1, pruneThreshold < p.2 * sw.2) :
    ScalarProduct spectra ws = addScaleIter spectra ws := by
  have hcs : ∀ s ∈ spectra, s.Chain' posLt ∧ s ≠ [] ∧ posNonneg s :=
    fun s hs => ⟨(hcan s hs).1.1, (hcan s hs).2.1, (hcan s hs).2.2⟩
  obtain ⟨r1, h1, c1, n1, a1, w1⟩ := ScalarProduct_spec spectra ws hlen hcs hne hnp
  obtain ⟨r2, h2, c2, n2, nn2, w2t, w2⟩ := addScaleIter_spec spectra ws hne
    (le_of_eq hlen.symm) hcs hnp
  rw [h1, h2]
  have ha2 : allPos r2 := fun p hp =>
    lt_trans (by norm_num [pruneThreshold]) (w2t p hp)
  rw [strict_sorted_posW_unique r1 r2 c1 c2 a1 ha2
    (fun m => (w1 m).trans (w2 m).symm)]

/-- Witness for C5 (amended) at two concrete canonical one-peak measures. -/
theorem scalarProduct_eq_addScaleIter_witness :
    ScalarProduct [[((1 : ℚ), 1)], [((2 : ℚ), 1)]] [1, 1] =
      addScaleIter [[((1 : ℚ), 1)], [((2 : ℚ), 1)]] [1, 1] := by
  apply scalarProduct_eq_addScaleIter
  · simp
  · simp
  · intro s hs
    have h1 : canonical [((1 : ℚ), 1)] ∧ ([((1 : ℚ), 1)] : List Peak) ≠ [] ∧
        posNonneg [((1 : ℚ), 1)] := by
      refine ⟨⟨List.chain'_singleton _, ?_⟩, by simp, ?_⟩
      · intro p hp
        fin_cases hp
        norm_num [pruneThreshold]
      · intro p hp
        fin_cases hp
        norm_num
    have h2 : canonical [((2 : ℚ), 1)] ∧ ([((2 : ℚ), 1)] : List Peak) ≠ [] ∧
        posNonneg [((2 : ℚ), 1)] := by
      refine ⟨⟨List.chain'_singleton _, ?_⟩, by simp, ?_⟩
      · intro p hp
        fin_cases hp
        norm_num [pruneThreshold]
      · intro p hp
        fin_cases hp
        norm_num
    fin_cases hs
    · exact h1
    · exact h2
  · intro sw hsw
    fin_cases hsw
    · intro p hp
      fin_cases hp
      norm_num [pruneThreshold]
    · intro p hp
      fin_cases hp
      norm_num [pruneThreshold]

end Masserstein
